import Mathlib

/-!
Verification of the FogMaze repository: a shallow embedding in Lean 4 of

  * `src/frontend/maze.js`    — `SeededRandom` (32-bit LCG PRNG, Fisher–Yates
    shuffle) and `MazeGenerator` (recursive-backtracking carver, braiding,
    start/exit selection);
  * `src/contracts/FogMaze.sol` — `generateSeed`, `calculateScore`,
    `submitRun` (Solidity 0.8 checked `uint256` arithmetic, modelled over
    `Nat` with explicit `2^256` overflow checks and `Except` for reverts);
  * the browser game code (`FogMazeGame.revealArea` / `DemoGame.revealArea`,
    client-side `calculateScore`).

Conventions used throughout:

  * JS numbers that always hold integers are modelled as `Nat`/`Int`.  Where
    the source computes `Math.floor(x * f)` with `f` a small decimal, the
    embedding uses exact rational arithmetic expressed with `Nat`
    multiplication and division (`len * 5 * level / 100`); for every input
    the program can see (32-bit PRNG state, list lengths far below `2^21`)
    the IEEE-754 double computation in the source is exact, so the two agree.
  * grids are total functions `Int → Int → Nat` (`g y x` mirrors
    `this.grid[y][x]`), everything outside the allocated square reads `0`;
    updates are function overrides.
  * the JS recursion of `recursiveBacktrack` is embedded with explicit fuel
    (`Option`-valued: `none` means the fuel ran out); `backtrack_complete`
    proves `size * size` fuel always suffices, so the embedded function
    with that fuel agrees with the source's unbounded recursion.
-/

namespace FogMaze

/-! ### `SeededRandom` (src/frontend/maze.js, lines 7–49) -/

/-- Constant `Math.pow(2, 32)` — the LCG modulus. -/
def M32 : Nat := 2 ^ 32

/-- Source `next()`: `state = (1664525 * state + 1013904223) % 2^32`.  The source
then returns `state / 2^32`; draws are consumed through `nextInt` below.
(The summands are written in commuted order so that Lean's definitional
unfolding on a symbolic state gets stuck fast; `lcgNext_src` certifies
the value is exactly the source's expression.) -/
def lcgNext (s : Nat) : Nat := (1013904223 + 1664525 * s) % M32

/-- Source `nextInt(min, max)`: `Math.floor(next() * (max - min)) + min`,
first component is the updated PRNG state.  `⌊(s'/2^32) * (max-min)⌋`
is exactly `s' * (max - min) / 2^32` in `Nat` arithmetic. -/
def nextInt (s : Nat) (lo hi : Nat) : Nat × Nat :=
  let s' := lcgNext s
  (s', s' * (hi - lo) / M32 + lo)

/-- The `parseInt(seedStr.slice(0, 8), 16) || 1` seeding of the constructor:
a zero (or unparsable) seed falls back to state 1. -/
def initState (seed : Nat) : Nat := if seed = 0 then 1 else seed

/-- Swap `[arr[i], arr[j]] = [arr[j], arr[i]]` on a list (both indexes in range in
every use the program makes; out-of-range reads leave the list unchanged). -/
def swapL {α : Type} (l : List α) (i j : Nat) : List α :=
  match l[i]?, l[j]? with
  | some a, some b => (l.set i b).set j a
  | _, _ => l

/-- The Fisher–Yates loop of `shuffle`: `for (i = len-1; i > 0; i--)`.
The argument is the loop variable `i`. -/
def fyAux {α : Type} : Nat → List α → Nat → Nat × List α
  | rng, arr, 0 => (rng, arr)
  | rng, arr, v + 1 =>
    let p := nextInt rng 0 (v + 2)
    fyAux p.1 (swapL arr (v + 1) p.2) v

/-- Source `shuffle(array)`: copies the array (`[...array]`) and runs Fisher–Yates
on the copy, returning it together with the updated PRNG state. -/
def shuffle {α : Type} (rng : Nat) (l : List α) : Nat × List α :=
  fyAux rng l (l.length - 1)

/-! ### `FogMaze.sol` — Solidity 0.8 checked `uint256` arithmetic -/

/-- Constant `2^256`, the `uint256` overflow modulus.  Solidity `^0.8` arithmetic
reverts on overflow, modelled with `Except`. -/
def U256 : Nat := 2 ^ 256

/-- Checked `uint256` multiplication. -/
def umul (a b : Nat) : Except String Nat :=
  if a * b < U256 then .ok (a * b) else .error "overflow"

/-- Checked `uint256` addition. -/
def uadd (a b : Nat) : Except String Nat :=
  if a + b < U256 then .ok (a + b) else .error "overflow"

/-- Source `calculateScore` (FogMaze.sol, lines 78-88):
`baseScore = level * 1000; penalty = steps * 2 + timeTaken * 3;
return penalty >= baseScore ? 0 : baseScore - penalty;`
under checked `uint256` arithmetic. -/
def calculateScore (level steps timeTaken : Nat) : Except String Nat :=
  match umul level 1000 with
  | .error e => .error e
  | .ok baseScore =>
    match umul steps 2 with
    | .error e => .error e
    | .ok p1 =>
      match umul timeTaken 3 with
      | .error e => .error e
      | .ok p2 =>
        match uadd p1 p2 with
        | .error e => .error e
        | .ok penalty => .ok (if penalty ≥ baseScore then 0 else baseScore - penalty)

/-- Source `generateSeed` (FogMaze.sol, lines 55-69).  `chainBlock` is
`block.number`; `bh` models the `blockhash` oracle and `hash` models
`keccak256(abi.encodePacked(·, ·, ·))` — both are abstract environment
inputs of the model (the hash itself is a cryptographic primitive outside
the repository).  The two `require`s are checked in source order. -/
def generateSeed (chainBlock : Nat) (bh : Nat → Nat)
    (hash : Nat → Nat → Nat → Nat)
    (blockNumber player nonce : Nat) : Except String Nat :=
  if blockNumber < chainBlock then
    if chainBlock - blockNumber ≤ 256 then
      .ok (hash (bh blockNumber) player nonce)
    else .error "Block too old (>256 blocks)"
  else .error "Block not yet mined"

/-- Constant `MAX_RUNS_PER_PLAYER` (FogMaze.sol, line 11). -/
def MAX_RUNS_PER_PLAYER : Nat := 100

/-- One `Run` struct (FogMaze.sol, lines 17-23). -/
structure Run where
  level : Nat
  steps : Nat
  timeTaken : Nat
  seed : Nat
  timestamp : Nat
  nonce : Nat
deriving DecidableEq

/-- Contract storage: `playerRuns` and `playerNonces`, keyed by address
(modelled as `Nat`). -/
structure CState where
  playerRuns : Nat → List Run
  playerNonces : Nat → Nat

/-- The `RunSubmitted` event payload (FogMaze.sol, lines 31-39). -/
structure RunEvent where
  player : Nat
  level : Nat
  steps : Nat
  timeTaken : Nat
  seed : Nat
  score : Nat
  nonce : Nat
deriving DecidableEq

/-- Source `submitRun` (FogMaze.sol, lines 98-132).  A revert (any `.error`)
leaves the pre-call state in force: no successor state is produced.
`timestamp` is `block.timestamp`. -/
def submitRun (chainBlock timestamp : Nat) (bh : Nat → Nat)
    (hash : Nat → Nat → Nat → Nat)
    (sender level steps timeTaken blockNumber nonce : Nat)
    (st : CState) : Except String (CState × RunEvent) :=
  if level > 0 then
    if (st.playerRuns sender).length < MAX_RUNS_PER_PLAYER then
      match generateSeed chainBlock bh hash blockNumber sender nonce with
      | .error e => .error e
      | .ok seed =>
        match calculateScore level steps timeTaken with
        | .error e => .error e
        | .ok score =>
          .ok ({ st with playerRuns := fun a =>
                  if a = sender then st.playerRuns a ++
                    [⟨level, steps, timeTaken, seed, timestamp, nonce⟩]
                  else st.playerRuns a },
               ⟨sender, level, steps, timeTaken, seed, score, nonce⟩)
    else .error "Max runs reached"
  else .error "Invalid level"

/-! ### Client-side score and fog of war -/

/-- Client `calculateScore` (identical in `FogMazeGame`, src/unnamed/part_002
lines 906-910, and `DemoGame`, src/unnamed/part_001 lines 244-248):
`Math.max(0, level * 1000 - (steps * 2 + timeTaken * 3))`, in the exact
integer semantics of the JS doubles (exact below `2^53`). -/
def clientCalculateScore (level steps timeTaken : Nat) : Int :=
  max 0 ((level : Int) * 1000 - ((steps : Int) * 2 + (timeTaken : Int) * 3))

/-- Modelled from the spec (for the refinement comparison of C9): the
authority score formula over unbounded naturals, following the claim's
wording "penalty >= base ? 0 : base - penalty over unbounded naturals". -/
def scoreSpec (level steps timeTaken : Nat) : Nat :=
  if steps * 2 + timeTaken * 3 ≥ level * 1000 then 0
  else level * 1000 - (steps * 2 + timeTaken * 3)

/-- Squared Euclidean distance between `(x, y)` and `(cx, cy)` over
rationals (JS numbers; the game's values — coordinates up to the grid
size, radii 1, 1.5 or 2 from `LEVEL_CONFIG` — are all exact in doubles).
For a radius `r ≥ 0` the source's `Math.sqrt(dx*dx + dy*dy) <= r` holds
exactly when `dx^2 + dy^2 <= r^2`. -/
def dist2 (x y cx cy : ℚ) : ℚ := (x - cx) ^ 2 + (y - cy) ^ 2

/-- Iteration count of the loop `for (let y = cy - radius; y <= cy +
radius; y++)`: it visits `cy - radius + k` for natural `k ≤ 2 * radius`,
so `⌊2 * radius⌋ + 1` iterations for `radius ≥ 0` and none for
`radius < 0`. -/
def revealIter (radius : ℚ) : Nat := (⌊2 * radius⌋ + 1).toNat

/-- Source `revealArea(cx, cy, radius)` (identical in `FogMazeGame`,
src/unnamed/part_002 lines 787-804, and `DemoGame`, src/unnamed/part_001
lines 150-164): clears the revealed set, re-adds the exit, then walks the
bounding box `[c - r, c + r]` in steps of 1 starting at `c - r`, adding
every visited in-bounds point whose Euclidean distance to the center is at
most `r`.  Coordinates and the radius are JS numbers, modelled as `ℚ`:
the callers pass `vision` values 1, 1.5 or 2, and for a fractional radius
the loop visits fractional, non-lattice points.  The result is a function
of the arguments alone — the cleared previous set never enters. -/
def revealArea (mazeLen : Nat) (exitPos : ℚ × ℚ) (cx cy : ℚ)
    (radius : ℚ) : List (ℚ × ℚ) :=
  exitPos ::
    (List.range (revealIter radius)).flatMap (fun (dy : Nat) =>
      (List.range (revealIter radius)).filterMap (fun (dx : Nat) =>
        if (0 ≤ cx - radius + (dx : ℚ) ∧ cx - radius + (dx : ℚ) < (mazeLen : ℚ) ∧
              0 ≤ cy - radius + (dy : ℚ) ∧ cy - radius + (dy : ℚ) < (mazeLen : ℚ)) ∧
            dist2 (cx - radius + (dx : ℚ)) (cy - radius + (dy : ℚ)) cx cy ≤
              radius ^ 2
        then some (cx - radius + (dx : ℚ), cy - radius + (dy : ℚ)) else none))

/-! ### `MazeGenerator` (src/frontend/maze.js, lines 51-389) -/

/-- Function-backed table update: `upd2 f y x v` overrides `f` at row `y`,
column `x` (mirrors `this.grid[y][x] = v` / `this.visited[y][x] = v`). -/
def upd2 {β : Type} (f : Int → Int → β) (y x : Int) (v : β) : Int → Int → β :=
  fun b a => if b = y ∧ a = x then v else f b a

/-- The four axis directions N, E, S, W in source order
(`{dx:0,dy:-1}, {dx:1,dy:0}, {dx:0,dy:1}, {dx:-1,dy:0}`), as `(dx, dy)`. -/
def dirs4 : List (Int × Int) := [(0, -1), (1, 0), (0, 1), (-1, 0)]

/-- Mutable state of one `MazeGenerator` run: the grid (`0` wall, `1` path,
`2` start, `3` exit), the `visited` cell table, and the PRNG state. -/
structure MState where
  grid : Int → Int → Nat
  visited : Int → Int → Bool
  rng : Nat

/-- Source `isValidCell(x, y)`: logical cell coordinates inside `size × size`. -/
def isValidCell (size : Nat) (x y : Int) : Prop :=
  0 ≤ x ∧ x < (size : Int) ∧ 0 ≤ y ∧ y < (size : Int)

instance isValidCell.dec (size : Nat) (x y : Int) :
    Decidable (isValidCell size x y) := by
  unfold isValidCell
  infer_instance

/-- Source `isValid(x, y)`: grid coordinates inside `gridSize × gridSize`. -/
def isValidG (gridSize : Nat) (x y : Int) : Prop :=
  0 ≤ x ∧ x < (gridSize : Int) ∧ 0 ≤ y ∧ y < (gridSize : Int)

instance isValidG.dec (gridSize : Nat) (x y : Int) :
    Decidable (isValidG gridSize x y) := by
  unfold isValidG
  infer_instance

/-- One iteration of the direction loop in `recursiveBacktrack`: given the
recursive continuation `recur` (the carver at the remaining fuel), if the
neighbor cell in direction `d` is valid and unvisited, carve the wall
between the cells and recurse into the neighbor; otherwise keep the state. -/
def dirStep (size : Nat) (recur : Int × Int → MState → Option MState)
    (c : Int × Int) (acc : Option MState) (d : Int × Int) : Option MState :=
  match acc with
  | none => none
  | some st =>
    if isValidCell size (c.1 + d.1) (c.2 + d.2) ∧
        st.visited (c.2 + d.2) (c.1 + d.1) = false then
      recur (c.1 + d.1, c.2 + d.2)
        ⟨upd2 st.grid (2 * c.2 + 1 + d.2) (2 * c.1 + 1 + d.1) 1,
         st.visited, st.rng⟩
    else some st

/-- Source `recursiveBacktrack(cellX, cellY)` with explicit fuel: mark the cell
visited and its grid cell path, shuffle the four directions with the PRNG,
then run the direction loop.  `none` means the fuel ran out (never happens
with fuel `size * size`, see `backtrack_complete`). -/
def backtrack (size : Nat) : Nat → Int × Int → MState → Option MState
  | 0, _, _ => none
  | fuel + 1, c, st =>
    let g1 := upd2 st.grid (2 * c.2 + 1) (2 * c.1 + 1) 1
    let vis1 := upd2 st.visited c.2 c.1 true
    let p := shuffle st.rng dirs4
    (p.2).foldl (dirStep size (backtrack size fuel) c) (some ⟨g1, vis1, p.1⟩)

/-- Source `countNeighborPaths(x, y)`: how many of the four orthogonal neighbors
of grid cell `(x, y)` are in bounds with code `>= 1`. -/
def countNeighborPaths (g : Int → Int → Nat) (gridSize : Nat)
    (x y : Int) : Nat :=
  dirs4.countP (fun d =>
    decide (isValidG gridSize (x + d.1) (y + d.2)) &&
      decide (1 ≤ g (y + d.2) (x + d.1)))

/-- Source `findDeadEnds()`: scans `y` then `x` over `0 <= y, x < size` (the
source indexes `this.grid[y][x]` with these bounds — note they are CELL
bounds, not grid bounds), collects `(x, y)` with code exactly `1` and
exactly one path neighbor, and returns the PRNG-shuffled list together
with the updated PRNG state. -/
def findDeadEnds (size gridSize : Nat) (g : Int → Int → Nat)
    (rng : Nat) : Nat × List (Int × Int) :=
  shuffle rng
    ((List.range size).flatMap (fun (y : Nat) =>
      (List.range size).filterMap (fun (x : Nat) =>
        if g (y : Int) (x : Int) = 1 ∧
            countNeighborPaths g gridSize (x : Int) (y : Int) = 1 then
          some ((x : Int), (y : Int))
        else none)))

/-- Source `getWalls(x, y)`: the in-bounds orthogonal neighbors of `(x, y)` with
code `0`, in direction order. -/
def getWalls (g : Int → Int → Nat) (gridSize : Nat)
    (x y : Int) : List (Int × Int) :=
  dirs4.filterMap (fun d =>
    if isValidG gridSize (x + d.1) (y + d.2) ∧ g (y + d.2) (x + d.1) = 0 then
      some (x + d.1, y + d.2)
    else none)

/-- The braiding loop of `addBraiding`: for each selected dead end in
order, if it has adjacent wall cells, open one PRNG-chosen wall to path
(no PRNG draw when the wall list is empty). -/
def braidLoop (gridSize : Nat) :
    List (Int × Int) → (Int → Int → Nat) → Nat → (Int → Int → Nat) × Nat
  | [], g, rng => (g, rng)
  | c :: rest, g, rng =>
    let walls := getWalls g gridSize c.1 c.2
    if walls.length > 0 then
      let p := nextInt rng 0 walls.length
      let w := walls.getD p.2 (0, 0)
      braidLoop gridSize rest (upd2 g w.2 w.1 1) p.1
    else braidLoop gridSize rest g rng

/-- Source `addBraiding(factor)` with `factor = Math.min(level * 0.05, 0.3)` and
`numToRemove = Math.floor(deadEnds.length * factor)`: in exact arithmetic
`numToRemove = len * min (level * 5) 30 / 100` (see the header on floats).
Processes the first `numToRemove` shuffled dead ends. -/
def addBraiding (size level : Nat) (g : Int → Int → Nat)
    (rng : Nat) : (Int → Int → Nat) × Nat :=
  let gridSize := 2 * size + 1
  let de := findDeadEnds size gridSize g rng
  let numToRemove := de.2.length * min (level * 5) 30 / 100
  braidLoop gridSize (de.2.take numToRemove) g de.1

/-- Source `getEdgePathCells(side)`: path-coded cells scanned along one border
row/column of the grid — `x`/`y` runs over the odd indexes `1, 3, ...,
gridSize - 2` (`gridSize = 2*size + 1`).  Sides: 0 top (row 1), 1 right
(column `gridSize - 2`), 2 bottom (row `gridSize - 2`), 3 left (column 1);
any other side yields the empty list, as in the source's `switch`. -/
def getEdgePathCells (size : Nat) (g : Int → Int → Nat)
    (side : Nat) : List (Int × Int) :=
  let gridSize := 2 * size + 1
  match side with
  | 0 => (List.range size).filterMap (fun (k : Nat) =>
      if g 1 (2 * k + 1 : Int) = 1 then some ((2 * k + 1 : Int), 1) else none)
  | 1 => (List.range size).filterMap (fun (k : Nat) =>
      if g (2 * k + 1 : Int) ((gridSize : Int) - 2) = 1 then
        some (((gridSize : Int) - 2), (2 * k + 1 : Int)) else none)
  | 2 => (List.range size).filterMap (fun (k : Nat) =>
      if g ((gridSize : Int) - 2) (2 * k + 1 : Int) = 1 then
        some ((2 * k + 1 : Int), ((gridSize : Int) - 2)) else none)
  | 3 => (List.range size).filterMap (fun (k : Nat) =>
      if g (2 * k + 1 : Int) 1 = 1 then some (1, (2 * k + 1 : Int)) else none)
  | _ => []

/-- Source `pickStartAndExit()`: draw a side, pick a uniform path cell on it as
start (fallback `(1,1)` when the side has none, with no index draw), then
the opposite side likewise for the exit (fallback
`(gridSize-2, gridSize-2)`).  Returns (rng, start, exit) as `(x, y)`. -/
def pickStartAndExit (size : Nat) (g : Int → Int → Nat)
    (rng : Nat) : Nat × (Int × Int) × (Int × Int) :=
  let gridSize := 2 * size + 1
  let p0 := nextInt rng 0 4
  let side := p0.2
  let startCells := getEdgePathCells size g side
  let r1 :=
    if startCells.length = 0 then (p0.1, ((1 : Int), (1 : Int)))
    else
      let p1 := nextInt p0.1 0 startCells.length
      (p1.1, startCells.getD p1.2 (0, 0))
  let oppositeSide := (side + 2) % 4
  let exitCells := getEdgePathCells size g oppositeSide
  let r2 :=
    if exitCells.length = 0 then
      (r1.1, ((gridSize : Int) - 2, (gridSize : Int) - 2))
    else
      let p2 := nextInt r1.1 0 exitCells.length
      (p2.1, exitCells.getD p2.2 (0, 0))
  (r2.1, r1.2, r2.2)

/-- Source `generate()` (maze.js lines 76-97): carve from the center cell
`(⌊size/2⌋, ⌊size/2⌋)` with fuel `size * size`, braid, pick start and
exit, then mark them with codes 2 and 3.  Returns `(grid, start, exit)`;
`none` only if the carving fuel ran out (it cannot, see
`generate_isSome`). -/
def generate (seed size level : Nat) :
    Option ((Int → Int → Nat) × (Int × Int) × (Int × Int)) :=
  match backtrack size (size * size)
      (((size / 2 : Nat) : Int), ((size / 2 : Nat) : Int))
      ⟨fun _ _ => 0, fun _ _ => false, initState seed⟩ with
  | none => none
  | some st1 =>
    let b := addBraiding size level st1.grid st1.rng
    let pe := pickStartAndExit size b.1 b.2
    let start := pe.2.1
    let exitP := pe.2.2
    some (upd2 (upd2 b.1 start.2 start.1 2) exitP.2 exitP.1 3, start, exitP)

/-! ### Carver invariants: monotonicity -/

/-- Evolution relation of the carver state: `visited` only grows, and grid
cells either keep their value or are set to `1` (the only value the carver
and braider ever write). -/
def MonoSt (st st' : MState) : Prop :=
  (∀ y x, st.visited y x = true → st'.visited y x = true) ∧
    (∀ y x, st'.grid y x = st.grid y x ∨ st'.grid y x = 1)

/-- Invariant "visited implies marked": every visited cell's grid cell carries
code 1 (the mark written on entry and never overwritten). -/
def VMarked (st : MState) : Prop :=
  ∀ cx cy : Int, st.visited cy cx = true →
    st.grid (2 * cy + 1) (2 * cx + 1) = 1

/-! ### Reachability through non-wall cells -/

/-- Grid `(x, y)` coordinates of a logical cell (`gx = 2*cellX + 1`,
`gy = 2*cellY + 1`). -/
def gcoord (c : Int × Int) : Int × Int := (2 * c.1 + 1, 2 * c.2 + 1)

/-- Orthogonal adjacency of grid positions, as `(x, y)` pairs. -/
def Adj (p q : Int × Int) : Prop :=
  ∃ d ∈ dirs4, q = (p.1 + d.1, p.2 + d.2)

/-- One move of the claim: between orthogonally adjacent non-wall cells. -/
def StepR (g : Int → Int → Nat) (p q : Int × Int) : Prop :=
  Adj p q ∧ g p.2 p.1 ≠ 0 ∧ g q.2 q.1 ≠ 0

/-- Reachability by moves between orthogonally adjacent non-wall cells. -/
def Reach (g : Int → Int → Nat) (p q : Int × Int) : Prop :=
  Relation.ReflTransGen (StepR g) p q

/-- Root-connectivity invariant: every non-wall cell is reachable from
`r`. -/
def GInv (r : Int × Int) (g : Int → Int → Nat) : Prop :=
  ∀ p : Int × Int, g p.2 p.1 ≠ 0 → Reach g r p

/-! ### Carver completeness: with fuel `size * size` every cell is visited -/

/-- Number of unvisited logical cells. -/
def unvisCount (size : Nat) (vis : Int → Int → Bool) : Nat :=
  (((Finset.Ico (0 : Int) (size : Int)) ×ˢ
      (Finset.Ico (0 : Int) (size : Int))).filter
    (fun p => vis p.2 p.1 = false)).card

/-- All valid neighbors of `v` are visited. -/
def Closed4 (size : Nat) (st : MState) (v : Int × Int) : Prop :=
  ∀ d ∈ dirs4, isValidCell size (v.1 + d.1) (v.2 + d.2) →
    st.visited (v.2 + d.2) (v.1 + d.1) = true

/-- Concrete generated maze at `(seed, size, level) = (1, 2, 1)`: grid
accessor for witnesses. -/
def g121 : Int → Int → Nat :=
  match generate 1 2 1 with
  | some r => r.1
  | none => fun _ _ => 0

/-- Start of the `(1, 2, 1)` maze. -/
def s121 : Int × Int :=
  match generate 1 2 1 with
  | some r => r.2.1
  | none => (0, 0)

/-- Exit of the `(1, 2, 1)` maze. -/
def e121 : Int × Int :=
  match generate 1 2 1 with
  | some r => r.2.2
  | none => (0, 0)

/-- The carved (pre-braiding) grid of the `(seed, size, level) = (1, 2, 1)`
generation: `generate` calls `backtrack` from center cell `(1, 1)` with
fuel 4. -/
def carved12grid : Int → Int → Nat :=
  match backtrack 2 4 (1, 1) ⟨fun _ _ => 0, fun _ _ => false, initState 1⟩ with
  | some st => st.grid
  | none => fun _ _ => 0

/-- PRNG state after the carve of the `(1, 2, 1)` generation, as passed to
`findDeadEnds` inside `addBraiding`. -/
def carved12rng : Nat :=
  match backtrack 2 4 (1, 1) ⟨fun _ _ => 0, fun _ _ => false, initState 1⟩ with
  | some st => st.rng
  | none => 0

/-! ### Theorems -/

/-- Function `lcgNext` computes the source expression `(a * state + c) % m`. -/
theorem lcgNext_src (s : Nat) : lcgNext s = (1664525 * s + 1013904223) % M32 := by
  unfold lcgNext; ring_nf

/-! ### Basic PRNG lemmas -/

theorem lcgNext_lt (s : Nat) : lcgNext s < M32 := by
  have : 0 < M32 := by decide
  exact Nat.mod_lt _ this

theorem nextInt_lt (s k : Nat) (hk : 0 < k) : (nextInt s 0 k).2 < k := by
  show lcgNext s * (k - 0) / M32 + 0 < k
  have h1 : lcgNext s * (k - 0) < k * M32 := by
    have := lcgNext_lt s
    calc lcgNext s * (k - 0) = (k - 0) * lcgNext s := Nat.mul_comm _ _
    _ < k * M32 := by
        apply Nat.mul_lt_mul_of_le_of_lt (by omega) this hk
  have := Nat.div_lt_iff_lt_mul (show 0 < M32 by decide) |>.mpr h1
  omega

/-- Moving the `j`-th element of `t` to the front while writing `a` in its
place is a permutation of `a :: t`. -/
theorem get_cons_set_perm {α : Type} :
    ∀ (t : List α) (j : Nat) (hj : j < t.length) (a : α),
      (t.get ⟨j, hj⟩ :: t.set j a).Perm (a :: t) := by
  intro t
  induction t with
  | nil => intro j hj; simp at hj
  | cons b t' ih =>
    intro j hj a
    cases j with
    | zero => simpa using List.Perm.swap a b t'
    | succ j' =>
      have hj' : j' < t'.length := by simpa using hj
      have h1 : ((b :: t').get ⟨j' + 1, hj⟩ :: (b :: t').set (j' + 1) a) =
          (t'.get ⟨j', hj'⟩ :: b :: t'.set j' a) := by simp
      rw [h1]
      exact ((List.Perm.swap b (t'.get ⟨j', hj'⟩) (t'.set j' a)).trans
        (List.Perm.cons b (ih j' hj' a))).trans (List.Perm.swap a b t')

/-- Writing `l[j]` at position `i` and `l[i]` at position `j` permutes `l`. -/
theorem set_set_perm {α : Type} :
    ∀ (l : List α) (i j : Nat) (hi : i < l.length) (hj : j < l.length),
      ((l.set i (l.get ⟨j, hj⟩)).set j (l.get ⟨i, hi⟩)).Perm l := by
  intro l
  induction l with
  | nil => intro i j hi; simp at hi
  | cons a t ih =>
    intro i j hi hj
    cases i with
    | zero =>
      cases j with
      | zero => simp
      | succ j' =>
        have hj' : j' < t.length := by simpa using hj
        have h1 : ((a :: t).set 0 ((a :: t).get ⟨j' + 1, hj⟩)).set (j' + 1)
              ((a :: t).get ⟨0, hi⟩) = (t.get ⟨j', hj'⟩ :: t.set j' a) := by simp
        rw [h1]
        exact get_cons_set_perm t j' hj' a
    | succ i' =>
      have hi' : i' < t.length := by simpa using hi
      cases j with
      | zero =>
        have h1 : ((a :: t).set (i' + 1) ((a :: t).get ⟨0, hj⟩)).set 0
              ((a :: t).get ⟨i' + 1, hi⟩) = (t.get ⟨i', hi'⟩ :: t.set i' a) := by
          simp
        rw [h1]
        exact get_cons_set_perm t i' hi' a
      | succ j' =>
        have hj' : j' < t.length := by simpa using hj
        have h1 : ((a :: t).set (i' + 1) ((a :: t).get ⟨j' + 1, hj⟩)).set (j' + 1)
              ((a :: t).get ⟨i' + 1, hi⟩) =
              (a :: (t.set i' (t.get ⟨j', hj'⟩)).set j' (t.get ⟨i', hi'⟩)) := by
          simp
        rw [h1]
        exact List.Perm.cons a (ih i' j' hi' hj')

theorem swapL_perm {α : Type} (l : List α) (i j : Nat) : (swapL l i j).Perm l := by
  unfold swapL
  cases hli : l[i]? with
  | none => exact List.Perm.refl l
  | some a =>
    cases hlj : l[j]? with
    | none => exact List.Perm.refl l
    | some b =>
      have hi : i < l.length := by
        by_contra h
        rw [List.getElem?_eq_none (by omega)] at hli
        exact Option.noConfusion hli
      have hj : j < l.length := by
        by_contra h
        rw [List.getElem?_eq_none (by omega)] at hlj
        exact Option.noConfusion hlj
      have ha : a = l.get ⟨i, hi⟩ := by
        have := List.getElem?_eq_getElem hi
        rw [hli] at this
        simpa using Option.some.inj this
      have hb : b = l.get ⟨j, hj⟩ := by
        have := List.getElem?_eq_getElem hj
        rw [hlj] at this
        simpa using Option.some.inj this
      rw [ha, hb]
      exact set_set_perm l i j hi hj

theorem fyAux_perm {α : Type} :
    ∀ (v : Nat) (rng : Nat) (arr : List α), ((fyAux rng arr v).2).Perm arr := by
  intro v
  induction v with
  | zero => intro rng arr; exact List.Perm.refl arr
  | succ v' ih =>
    intro rng arr
    rw [fyAux]
    exact (ih _ _).trans (swapL_perm arr _ _)

/-- Step equation for `fyAux`, for concrete evaluation and later proofs. -/
theorem fyAux_succ {α : Type} (rng : Nat) (arr : List α) (v : Nat) :
    fyAux rng arr (v + 1) =
      fyAux (nextInt rng 0 (v + 2)).1 (swapL arr (v + 1) (nextInt rng 0 (v + 2)).2) v := by
  rw [fyAux]

/-- Claim C10 core lemma: `shuffle` returns a permutation of its input. -/
theorem shuffle_perm {α : Type} (rng : Nat) (l : List α) :
    ((shuffle rng l).2).Perm l :=
  fyAux_perm (l.length - 1) rng l

/-! ### Theorems on the score, seed and submission logic -/

/-- Claim C2, counterexample: the claim says `calculateScore` "never
fails", but under Solidity 0.8 checked `uint256` arithmetic the
multiplication `level * 1000` reverts on overflow: at
`level = 2^254, steps = 0, timeTaken = 0` the call reverts. -/
theorem calculateScore_overflow_cex :
    calculateScore (2 ^ 254) 0 0 = Except.error "overflow" := by
  have h : ¬ (2 ^ 254 * 1000 < U256) := by
    unfold U256
    norm_num
  unfold calculateScore umul
  rw [if_neg h]

/-- Helper: `calculateScore` on inputs whose intermediate `uint256`
computations do not overflow. -/
theorem calculateScore_checked_ok (level steps timeTaken : Nat)
    (h1 : level * 1000 < U256)
    (h2 : steps * 2 + timeTaken * 3 < U256) :
    calculateScore level steps timeTaken =
      Except.ok (if steps * 2 + timeTaken * 3 ≥ level * 1000 then 0
        else level * 1000 - (steps * 2 + timeTaken * 3)) := by
  have hs : steps * 2 < U256 := by omega
  have ht : timeTaken * 3 < U256 := by omega
  simp only [calculateScore, umul, uadd, if_pos h1, if_pos hs, if_pos ht, if_pos h2]

/-- Claim C2 (amended): for all inputs whose intermediate `uint256`
computations do not overflow (`level * 1000 < 2^256` and
`steps * 2 + timeTaken * 3 < 2^256`), `calculateScore` succeeds with
`level*1000 - (steps*2 + timeTaken*3)` when the penalty is below the base
and `0` otherwise; the result is a natural number, never negative. -/
theorem calculateScore_ok (level steps timeTaken : Nat)
    (h1 : level * 1000 < U256)
    (h2 : steps * 2 + timeTaken * 3 < U256) :
    calculateScore level steps timeTaken =
      Except.ok (if steps * 2 + timeTaken * 3 ≥ level * 1000 then 0
        else level * 1000 - (steps * 2 + timeTaken * 3)) :=
  calculateScore_checked_ok level steps timeTaken h1 h2

/-- Witness for `calculateScore_ok` at the spec's own example
`level = 1, steps = 10, timeTaken = 20`: score 920. -/
theorem calculateScore_ok_witness :
    calculateScore 1 10 20 = Except.ok 920 := by
  have := calculateScore_ok 1 10 20 (by norm_num [U256]) (by norm_num [U256])
  simpa using this

/-- Claim C9: the client-side score (`Math.max(0, base - penalty)` over
exact integers) and the authority score formula over unbounded naturals
agree on every input; moreover on every input where the on-chain checked
computation does not overflow, the contract's `calculateScore` returns
exactly that common value. -/
theorem client_authority_score_agree (level steps timeTaken : Nat) :
    clientCalculateScore level steps timeTaken =
      (scoreSpec level steps timeTaken : Int) ∧
    (level * 1000 < U256 → steps * 2 + timeTaken * 3 < U256 →
      calculateScore level steps timeTaken =
        Except.ok (scoreSpec level steps timeTaken)) := by
  constructor
  · unfold clientCalculateScore scoreSpec
    split
    · next h =>
      rw [max_eq_left (by omega)]
      simp
    · next h =>
      rw [max_eq_right (by omega)]
      omega
  · intro h1 h2
    rw [calculateScore_checked_ok level steps timeTaken h1 h2]
    unfold scoreSpec
    split <;> simp

/-- Witness for the second (conditional) part of
`client_authority_score_agree` at `level = 3, steps = 200, timeTaken = 100`
(the spec's example: score 2300). -/
theorem client_authority_score_agree_witness :
    clientCalculateScore 3 200 100 = (scoreSpec 3 200 100 : Int) ∧
      calculateScore 3 200 100 = Except.ok (scoreSpec 3 200 100) :=
  ⟨(client_authority_score_agree 3 200 100).1,
   (client_authority_score_agree 3 200 100).2 (by norm_num [U256])
     (by norm_num [U256])⟩

/-- Claim C7: `generateSeed` fails with "Block not yet mined" (the spec's
`StaleReferenceError`) exactly when `blockNumber` is not strictly below the
current block; fails with "Block too old (>256 blocks)" (the spec's
`ExpiredReferenceError`) exactly when the current block exceeds
`blockNumber` by more than 256; otherwise returns the hash of the block
randomness, player and nonce; and two calls on identical inputs at the
same chain state agree. -/
theorem generateSeed_spec (chainBlock : Nat) (bh : Nat → Nat)
    (hash : Nat → Nat → Nat → Nat) (blockNumber player nonce : Nat) :
    (generateSeed chainBlock bh hash blockNumber player nonce =
        Except.error "Block not yet mined" ↔ ¬ blockNumber < chainBlock) ∧
    (generateSeed chainBlock bh hash blockNumber player nonce =
        Except.error "Block too old (>256 blocks)" ↔
          blockNumber + 256 < chainBlock) ∧
    (blockNumber < chainBlock → chainBlock ≤ blockNumber + 256 →
      generateSeed chainBlock bh hash blockNumber player nonce =
        Except.ok (hash (bh blockNumber) player nonce)) ∧
    generateSeed chainBlock bh hash blockNumber player nonce =
      generateSeed chainBlock bh hash blockNumber player nonce := by
  refine ⟨?_, ?_, ?_, rfl⟩
  · unfold generateSeed
    split
    · next h =>
      split
      · simp [h]
      · constructor
        · intro he
          exact absurd (Except.error.inj he) (by decide)
        · intro hn
          exact absurd h hn
    · next h => simp [h]
  · unfold generateSeed
    split
    · next h =>
      split
      · next h2 =>
        constructor
        · intro he
          simp at he
        · intro hn
          omega
      · next h2 =>
        constructor
        · intro _
          omega
        · intro _
          rfl
    · next h =>
      constructor
      · intro he
        exact absurd (Except.error.inj he) (by decide)
      · intro hn
        omega
  · intro h1 h2
    unfold generateSeed
    rw [if_pos h1, if_pos (by omega)]

/-- Witness for `generateSeed_spec` at a concrete chain state: block 9 of
a chain at height 10 is valid, so the seed is the hash of its randomness,
the player and the nonce. -/
theorem generateSeed_spec_witness :
    generateSeed 10 (fun _ => 5) (fun a b c => a * 1000000 + b * 1000 + c)
        9 7 3 = Except.ok 5007003 :=
  (generateSeed_spec 10 (fun _ => 5)
      (fun a b c => a * 1000000 + b * 1000 + c) 9 7 3).2.2.1
    (by omega) (by omega)

/-- Claim C8, counterexample: the claim says ANY submission by a player
with 100 stored runs fails with `CapacityExceededError` ("Max runs
reached"), but the `level > 0` check runs first: a full player submitting
`level = 0` fails with "Invalid level" instead. -/
theorem submitRun_full_level0_cex :
    (submitRun 10 99 (fun _ => 0) (fun _ _ _ => 0) 1 0 5 5 9 0
        ⟨fun _ => List.replicate 100 ⟨1, 1, 1, 1, 1, 1⟩, fun _ => 0⟩ =
      Except.error "Invalid level") ∧
    (submitRun 10 99 (fun _ => 0) (fun _ _ _ => 0) 1 0 5 5 9 0
        ⟨fun _ => List.replicate 100 ⟨1, 1, 1, 1, 1, 1⟩, fun _ => 0⟩ ≠
      Except.error "Max runs reached") := by
  constructor
  · unfold submitRun
    rw [if_neg (by omega)]
  · unfold submitRun
    rw [if_neg (by omega)]
    intro he
    exact absurd (Except.error.inj he) (by decide)

/-- Claim C8 (amended): a submission by a player whose Run sequence holds
`MAX_RUNS_PER_PLAYER = 100` records fails with "Max runs reached"
(`CapacityExceededError`) whenever `level ≥ 1`, and with "Invalid level"
(`InvalidLevelError`) when `level = 0`; in both cases no successor state
is produced (a revert leaves all storage unchanged), and a `level = 0`
submission fails this way for every state, appending nothing. -/
theorem submitRun_reject (chainBlock timestamp : Nat) (bh : Nat → Nat)
    (hash : Nat → Nat → Nat → Nat)
    (sender level steps timeTaken blockNumber nonce : Nat) (st : CState) :
    ((st.playerRuns sender).length = MAX_RUNS_PER_PLAYER → 1 ≤ level →
      submitRun chainBlock timestamp bh hash sender level steps timeTaken
          blockNumber nonce st = Except.error "Max runs reached") ∧
    (level = 0 →
      submitRun chainBlock timestamp bh hash sender level steps timeTaken
          blockNumber nonce st = Except.error "Invalid level") ∧
    (((st.playerRuns sender).length = MAX_RUNS_PER_PLAYER ∨ level = 0) →
      ∀ out, submitRun chainBlock timestamp bh hash sender level steps
          timeTaken blockNumber nonce st ≠ Except.ok out) := by
  refine ⟨?_, ?_, ?_⟩
  · intro hfull hlevel
    unfold submitRun
    rw [if_pos (by omega), if_neg (by omega)]
  · intro hlevel
    unfold submitRun
    rw [if_neg (by omega)]
  · intro hcase out
    rcases hcase with hfull | hlevel
    · rcases Nat.eq_zero_or_pos level with h0 | hpos
      · unfold submitRun
        rw [if_neg (by omega)]
        exact fun he => Except.noConfusion he
      · unfold submitRun
        rw [if_pos (by omega), if_neg (by omega)]
        exact fun he => Except.noConfusion he
    · unfold submitRun
      rw [if_neg (by omega)]
      exact fun he => Except.noConfusion he

/-- Witness for `submitRun_reject`: a full player submitting `level = 1`
is rejected with "Max runs reached". -/
theorem submitRun_reject_witness :
    submitRun 10 99 (fun _ => 0) (fun _ _ _ => 0) 1 1 5 5 9 0
        ⟨fun _ => List.replicate 100 ⟨1, 1, 1, 1, 1, 1⟩, fun _ => 0⟩ =
      Except.error "Max runs reached" :=
  (submitRun_reject 10 99 (fun _ => 0) (fun _ _ _ => 0) 1 1 5 5 9 0
      ⟨fun _ => List.replicate 100 ⟨1, 1, 1, 1, 1, 1⟩, fun _ => 0⟩).1
    (by simp [MAX_RUNS_PER_PLAYER]) (by omega)

/-- Claim C6, counterexample: the claim quantifies over every radius
`r ≥ 0`, and the game calls `revealArea` with `vision = 1.5` at levels
3-4 (`LEVEL_CONFIG`).  At center cell `(2, 2)` of a `5 × 5` grid with
radius `3/2`, the loop steps through fractional coordinates: the revealed
set contains `(3/2, 3/2)` (in bounds, distance `√(1/2) ≤ 3/2`), which is
neither the exit nor a grid cell — refuting the claim's "every other
element of the set is a grid cell". -/
theorem revealArea_fractional_radius_cex :
    (((3 : ℚ)/2, (3 : ℚ)/2) ∈ revealArea 5 (4, 4) 2 2 (3/2)) ∧
      ((3 : ℚ)/2, (3 : ℚ)/2) ≠ ((4 : ℚ), (4 : ℚ)) ∧
      ¬ ∃ a b : Int, ((3 : ℚ)/2, (3 : ℚ)/2) = ((a : ℚ), (b : ℚ)) := by
  refine ⟨?_, ?_, ?_⟩
  · unfold revealArea
    rw [List.mem_cons]
    right
    have hit : revealIter (3/2 : ℚ) = 4 := by
      unfold revealIter
      norm_num
      rfl
    rw [List.mem_flatMap]
    refine ⟨1, by rw [List.mem_range, hit]; omega, ?_⟩
    rw [List.mem_filterMap]
    refine ⟨1, by rw [List.mem_range, hit]; omega, ?_⟩
    have hco : (2 : ℚ) - 3/2 + ((1 : Nat) : ℚ) = 3/2 := by norm_num
    rw [hco, if_pos ?_]
    · constructor
      · norm_num
      · unfold dist2
        norm_num
  · intro hc
    have h1 := (Prod.mk.injEq .. |>.mp hc).1
    norm_num at h1
  · rintro ⟨a, b, hab⟩
    have h1 : (3 : ℚ)/2 = (a : ℚ) := (Prod.mk.injEq .. |>.mp hab).1
    have h2 : (3 : ℚ) = (a : ℚ) * 2 := by linarith
    have h3 : (3 : ℤ) = a * 2 := by exact_mod_cast h2
    omega

/-- Claim C6 (amended): for every integer radius `r ≥ 0` and center cell,
a point is in the set computed by `revealArea` exactly when it is the
exit or a grid cell — integer coordinates — inside the grid whose
Euclidean distance to the center is at most `r`.  In particular the exit
is always revealed, every other revealed element is an in-bounds grid
cell within the radius, and the output depends on nothing but the
arguments — the previous revealed set was cleared and cannot
contribute.  (For the fractional radii the game also uses, see
`revealArea_fractional_radius_cex`.) -/
theorem revealArea_mem (mazeLen : Nat) (exitPos : ℚ × ℚ) (cx cy : Int)
    (radius : Nat) (p : ℚ × ℚ) :
    p ∈ revealArea mazeLen exitPos (cx : ℚ) (cy : ℚ) (radius : ℚ) ↔
      (p = exitPos ∨
        ∃ a b : Int, p = ((a : ℚ), (b : ℚ)) ∧
          0 ≤ a ∧ a < (mazeLen : Int) ∧ 0 ≤ b ∧ b < (mazeLen : Int) ∧
          (a - cx) ^ 2 + (b - cy) ^ 2 ≤ (radius : Int) ^ 2) := by
  have hiter : revealIter (radius : ℚ) = 2 * radius + 1 := by
    unfold revealIter
    rw [show (2 : ℚ) * (radius : ℚ) = ((2 * radius : Nat) : ℚ) by push_cast; ring,
      Int.floor_natCast]
    omega
  unfold revealArea
  rw [List.mem_cons, hiter]
  constructor
  · rintro (hexit | hbox)
    · exact Or.inl hexit
    · right
      rw [List.mem_flatMap] at hbox
      obtain ⟨dy, _, hdy⟩ := hbox
      rw [List.mem_filterMap] at hdy
      obtain ⟨dx, _, hdx⟩ := hdy
      split at hdx
      · next hcond =>
        obtain rfl : ((cx : ℚ) - radius + dx, (cy : ℚ) - radius + dy) = p :=
          Option.some.inj hdx
        obtain ⟨⟨hb1, hb2, hb3, hb4⟩, hd⟩ := hcond
        have hqx : ((cx - (radius : Int) + (dx : Int) : Int) : ℚ) =
            (cx : ℚ) - (radius : ℚ) + (dx : ℚ) := by
          push_cast
          ring
        have hqy : ((cy - (radius : Int) + (dy : Int) : Int) : ℚ) =
            (cy : ℚ) - (radius : ℚ) + (dy : ℚ) := by
          push_cast
          ring
        refine ⟨cx - radius + dx, cy - radius + dy,
          Prod.ext hqx.symm hqy.symm, ?_, ?_, ?_, ?_, ?_⟩
        · rw [← hqx] at hb1
          exact_mod_cast hb1
        · rw [← hqx] at hb2
          exact_mod_cast hb2
        · rw [← hqy] at hb3
          exact_mod_cast hb3
        · rw [← hqy] at hb4
          exact_mod_cast hb4
        · unfold dist2 at hd
          have e1 : (cx : ℚ) - radius + dx - cx = (dx : ℚ) - radius := by ring
          have e2 : (cy : ℚ) - radius + dy - cy = (dy : ℚ) - radius := by ring
          rw [e1, e2] at hd
          have hdz : ((dx : Int) - radius) ^ 2 + ((dy : Int) - radius) ^ 2 ≤
              (radius : Int) ^ 2 := by exact_mod_cast hd
          have e3 : cx - (radius : Int) + dx - cx = (dx : Int) - radius := by ring
          have e4 : cy - (radius : Int) + dy - cy = (dy : Int) - radius := by ring
          rw [e3, e4]
          exact hdz
      · exact absurd hdx (by simp)
  · rintro (hexit | ⟨a, b, hp, ha0, ha1, hb0, hb1, hd⟩)
    · exact Or.inl hexit
    · right
      have hax : (a - cx) ^ 2 ≤ (radius : Int) ^ 2 := by
        nlinarith [sq_nonneg (b - cy)]
      have hbx : (b - cy) ^ 2 ≤ (radius : Int) ^ 2 := by
        nlinarith [sq_nonneg (a - cx)]
      have har : cx - radius ≤ a ∧ a ≤ cx + radius := by
        constructor <;> nlinarith
      have hbr : cy - radius ≤ b ∧ b ≤ cy + radius := by
        constructor <;> nlinarith
      have htnb : ((b - (cy - radius)).toNat : Int) = b - cy + radius := by
        omega
      have htna : ((a - (cx - radius)).toNat : Int) = a - cx + radius := by
        omega
      have hdyq : (cy : ℚ) - radius + (((b - (cy - radius)).toNat : Nat) : ℚ) =
          (b : ℚ) := by
        have h2 : ((((b - (cy - radius)).toNat : Nat)) : ℚ) =
            ((b - cy + radius : Int) : ℚ) := by
          rw [← htnb, Int.cast_natCast]
        rw [h2]
        push_cast
        ring
      have hdxq : (cx : ℚ) - radius + (((a - (cx - radius)).toNat : Nat) : ℚ) =
          (a : ℚ) := by
        have h2 : ((((a - (cx - radius)).toNat : Nat)) : ℚ) =
            ((a - cx + radius : Int) : ℚ) := by
          rw [← htna, Int.cast_natCast]
        rw [h2]
        push_cast
        ring
      rw [List.mem_flatMap]
      refine ⟨(b - (cy - radius)).toNat, by rw [List.mem_range]; omega, ?_⟩
      rw [List.mem_filterMap]
      refine ⟨(a - (cx - radius)).toNat, by rw [List.mem_range]; omega, ?_⟩
      rw [hdxq, hdyq]
      have hcond : ((0 ≤ (a : ℚ) ∧ (a : ℚ) < (mazeLen : ℚ) ∧
          0 ≤ (b : ℚ) ∧ (b : ℚ) < (mazeLen : ℚ)) ∧
          dist2 (a : ℚ) (b : ℚ) cx cy ≤ (radius : ℚ) ^ 2) := by
        refine ⟨⟨by exact_mod_cast ha0, by exact_mod_cast ha1,
          by exact_mod_cast hb0, by exact_mod_cast hb1⟩, ?_⟩
        unfold dist2
        exact_mod_cast hd
      rw [if_pos hcond, hp]

/-- Claim C10: `shuffle` returns a permutation of its input — the same
elements with the same multiplicities.  (The source copies the array with
`[...array]` before the Fisher–Yates pass, so the caller's array is left
unmodified; in this value-passing embedding that copy is what makes
`shuffle` a pure function of `(rng, l)`.) -/
theorem shuffle_spec {α : Type} [DecidableEq α] (rng : Nat) (l : List α) :
    ((shuffle rng l).2).Perm l ∧
      ∀ a : α, ((shuffle rng l).2).count a = l.count a :=
  ⟨shuffle_perm rng l, fun a => (shuffle_perm rng l).count_eq a⟩

/-- Witness for `shuffle_spec` at a concrete state and list. -/
theorem shuffle_spec_witness :
    ((shuffle 1 [10, 20, 30]).2).Perm [10, 20, 30] ∧
      ∀ a : Nat, ((shuffle 1 [10, 20, 30]).2).count a = [10, 20, 30].count a :=
  shuffle_spec 1 [10, 20, 30]

theorem MonoSt.refl (st : MState) : MonoSt st st :=
  ⟨fun _ _ h => h, fun _ _ => Or.inl (Eq.refl _)⟩

theorem MonoSt.trans {a b c : MState} (h1 : MonoSt a b) (h2 : MonoSt b c) :
    MonoSt a c := by
  refine ⟨fun y x h => h2.1 y x (h1.1 y x h), fun y x => ?_⟩
  rcases h2.2 y x with h | h
  · rw [h]
    exact h1.2 y x
  · exact Or.inr h

theorem upd2_same {β : Type} (f : Int → Int → β) (y x : Int) (v : β) :
    upd2 f y x v y x = v := by
  simp [upd2]

theorem upd2_cases {β : Type} (f : Int → Int → β) (y x : Int) (v : β)
    (b a : Int) : upd2 f y x v b a = f b a ∨ upd2 f y x v b a = v := by
  unfold upd2
  split
  · exact Or.inr rfl
  · exact Or.inl rfl

theorem upd2_of_ne {β : Type} (f : Int → Int → β) (y x : Int) (v : β)
    (b a : Int) (h : ¬(b = y ∧ a = x)) : upd2 f y x v b a = f b a := by
  simp [upd2, h]

/-- Unfolding of one direction-loop step on a live accumulator. -/
theorem dirStep_some (size : Nat) (R : Int × Int → MState → Option MState)
    (c : Int × Int) (st : MState) (d : Int × Int) :
    dirStep size R c (some st) d =
      if isValidCell size (c.1 + d.1) (c.2 + d.2) ∧
          st.visited (c.2 + d.2) (c.1 + d.1) = false then
        R (c.1 + d.1, c.2 + d.2)
          ⟨upd2 st.grid (2 * c.2 + 1 + d.2) (2 * c.1 + 1 + d.1) 1,
           st.visited, st.rng⟩
      else some st := rfl

/-- A `none` accumulator stays `none` through the direction loop. -/
theorem foldl_dirStep_none (size : Nat)
    (R : Int × Int → MState → Option MState) (c : Int × Int) :
    ∀ dirs : List (Int × Int),
      List.foldl (dirStep size R c) none dirs = none := by
  intro dirs
  induction dirs with
  | nil => rfl
  | cons d rest ih => simpa [dirStep] using ih

/-- The direction loop preserves `MonoSt` if the recursive continuation
does. -/
theorem foldl_dirStep_mono (size : Nat)
    (R : Int × Int → MState → Option MState) (c : Int × Int)
    (HR : ∀ c0 st st', R c0 st = some st' → MonoSt st st') :
    ∀ (dirs : List (Int × Int)) (st0 st' : MState),
      List.foldl (dirStep size R c) (some st0) dirs = some st' →
        MonoSt st0 st' := by
  intro dirs
  induction dirs with
  | nil =>
    intro st0 st' h
    exact (Option.some.inj h) ▸ MonoSt.refl st0
  | cons d rest ih =>
    intro st0 st' h
    rw [List.foldl_cons, dirStep_some] at h
    split at h
    · cases hR : R (c.1 + d.1, c.2 + d.2)
          ⟨upd2 st0.grid (2 * c.2 + 1 + d.2) (2 * c.1 + 1 + d.1) 1,
           st0.visited, st0.rng⟩ with
      | none =>
        rw [hR, foldl_dirStep_none] at h
        exact Option.noConfusion h
      | some st1 =>
        rw [hR] at h
        have m1 : MonoSt st0 ⟨upd2 st0.grid (2 * c.2 + 1 + d.2)
            (2 * c.1 + 1 + d.1) 1, st0.visited, st0.rng⟩ :=
          ⟨fun _ _ hv => hv, fun y x => upd2_cases _ _ _ _ _ _⟩
        exact (m1.trans (HR _ _ _ hR)).trans (ih st1 st' h)
    · exact ih st0 st' h

/-- Lemma: `backtrack` only grows `visited` and only writes `1` into the grid. -/
theorem backtrack_mono (size : Nat) :
    ∀ (fuel : Nat) (c : Int × Int) (st st' : MState),
      backtrack size fuel c st = some st' → MonoSt st st' := by
  intro fuel
  induction fuel with
  | zero => intro c st st' h; exact Option.noConfusion h
  | succ fuel ih =>
    intro c st st' h
    rw [backtrack] at h
    have m1 : MonoSt st
        ⟨upd2 st.grid (2 * c.2 + 1) (2 * c.1 + 1) 1,
         upd2 st.visited c.2 c.1 true, (shuffle st.rng dirs4).1⟩ := by
      refine ⟨fun y x hv => ?_, fun y x => upd2_cases _ _ _ _ _ _⟩
      show upd2 st.visited c.2 c.1 true y x = true
      rcases upd2_cases st.visited c.2 c.1 true y x with h2 | h2 <;> rw [h2]
      exact hv
    exact m1.trans (foldl_dirStep_mono size (backtrack size fuel) c
      (fun c0 s s' hs => ih c0 s s' hs) _ _ _ h)

/-- Visited cells are valid logical cells (the carver is only ever called
on valid cells). -/
theorem foldl_dirStep_valid (size : Nat)
    (R : Int × Int → MState → Option MState) (c : Int × Int)
    (HR : ∀ c0 st st', R c0 st = some st' → isValidCell size c0.1 c0.2 →
      (∀ v : Int × Int, st.visited v.2 v.1 = true →
        isValidCell size v.1 v.2) →
      (∀ v : Int × Int, st'.visited v.2 v.1 = true →
        isValidCell size v.1 v.2)) :
    ∀ (dirs : List (Int × Int)) (st0 st' : MState),
      List.foldl (dirStep size R c) (some st0) dirs = some st' →
      (∀ v : Int × Int, st0.visited v.2 v.1 = true →
        isValidCell size v.1 v.2) →
      (∀ v : Int × Int, st'.visited v.2 v.1 = true →
        isValidCell size v.1 v.2) := by
  intro dirs
  induction dirs with
  | nil =>
    intro st0 st' h h0
    exact (Option.some.inj h) ▸ h0
  | cons d rest ih =>
    intro st0 st' h h0
    rw [List.foldl_cons, dirStep_some] at h
    split at h
    · next hcond =>
      cases hR : R (c.1 + d.1, c.2 + d.2)
          ⟨upd2 st0.grid (2 * c.2 + 1 + d.2) (2 * c.1 + 1 + d.1) 1,
           st0.visited, st0.rng⟩ with
      | none =>
        rw [hR, foldl_dirStep_none] at h
        exact Option.noConfusion h
      | some st1 =>
        rw [hR] at h
        exact ih st1 st' h (HR _ _ _ hR hcond.1 h0)
    · exact ih st0 st' h h0

theorem backtrack_valid (size : Nat) :
    ∀ (fuel : Nat) (c : Int × Int) (st st' : MState),
      backtrack size fuel c st = some st' → isValidCell size c.1 c.2 →
      (∀ v : Int × Int, st.visited v.2 v.1 = true →
        isValidCell size v.1 v.2) →
      (∀ v : Int × Int, st'.visited v.2 v.1 = true →
        isValidCell size v.1 v.2) := by
  intro fuel
  induction fuel with
  | zero => intro c st st' h; exact Option.noConfusion h
  | succ fuel ih =>
    intro c st st' h hc h0
    rw [backtrack] at h
    refine foldl_dirStep_valid size (backtrack size fuel) c
      (fun c0 s s' hs => ih c0 s s' hs) _ _ _ h ?_
    intro v hv
    show isValidCell size v.1 v.2
    rcases upd2_cases st.visited c.2 c.1 true v.2 v.1 with h2 | _
    · exact h0 v (by rw [← h2]; exact hv)
    · by_cases hvc : v.2 = c.2 ∧ v.1 = c.1
      · rcases hvc with ⟨h3, h4⟩
        rw [h4, h3]
        exact hc
      · exact h0 v (by rw [← upd2_of_ne st.visited c.2 c.1 true v.2 v.1 hvc]; exact hv)

theorem foldl_dirStep_vm (size : Nat)
    (R : Int × Int → MState → Option MState) (c : Int × Int)
    (HR : ∀ c0 st st', R c0 st = some st' → VMarked st → VMarked st') :
    ∀ (dirs : List (Int × Int)) (st0 st' : MState),
      List.foldl (dirStep size R c) (some st0) dirs = some st' →
        VMarked st0 → VMarked st' := by
  intro dirs
  induction dirs with
  | nil =>
    intro st0 st' h h0
    exact (Option.some.inj h) ▸ h0
  | cons d rest ih =>
    intro st0 st' h h0
    rw [List.foldl_cons, dirStep_some] at h
    split at h
    · cases hR : R (c.1 + d.1, c.2 + d.2)
          ⟨upd2 st0.grid (2 * c.2 + 1 + d.2) (2 * c.1 + 1 + d.1) 1,
           st0.visited, st0.rng⟩ with
      | none =>
        rw [hR, foldl_dirStep_none] at h
        exact Option.noConfusion h
      | some st1 =>
        rw [hR] at h
        refine ih st1 st' h (HR _ _ _ hR ?_)
        intro cx cy hv
        show upd2 st0.grid (2 * c.2 + 1 + d.2) (2 * c.1 + 1 + d.1) 1
            (2 * cy + 1) (2 * cx + 1) = 1
        rcases upd2_cases st0.grid (2 * c.2 + 1 + d.2) (2 * c.1 + 1 + d.1) 1
            (2 * cy + 1) (2 * cx + 1) with h2 | h2 <;> rw [h2]
        exact h0 cx cy hv
    · exact ih st0 st' h h0

theorem backtrack_vm (size : Nat) :
    ∀ (fuel : Nat) (c : Int × Int) (st st' : MState),
      backtrack size fuel c st = some st' → VMarked st → VMarked st' := by
  intro fuel
  induction fuel with
  | zero => intro c st st' h; exact Option.noConfusion h
  | succ fuel ih =>
    intro c st st' h h0
    rw [backtrack] at h
    refine foldl_dirStep_vm size (backtrack size fuel) c
      (fun c0 s s' hs => ih c0 s s' hs) _ _ _ h ?_
    intro cx cy hv
    show upd2 st.grid (2 * c.2 + 1) (2 * c.1 + 1) 1 (2 * cy + 1) (2 * cx + 1) = 1
    have hv' : upd2 st.visited c.2 c.1 true cy cx = true := hv
    by_cases hvc : cy = c.2 ∧ cx = c.1
    · rw [hvc.1, hvc.2]
      exact upd2_same _ _ _ _
    · rcases upd2_cases st.grid (2 * c.2 + 1) (2 * c.1 + 1) 1
          (2 * cy + 1) (2 * cx + 1) with h2 | h2 <;> rw [h2]
      rw [upd2_of_ne st.visited c.2 c.1 true cy cx hvc] at hv'
      exact h0 cx cy hv'

theorem adj_symm {p q : Int × Int} (h : Adj p q) : Adj q p := by
  obtain ⟨d, hd, rfl⟩ := h
  simp only [dirs4, List.mem_cons, List.mem_singleton] at hd
  rcases hd with rfl | rfl | rfl | rfl | h
  · exact ⟨(0, 1), by simp [dirs4], by simp⟩
  · exact ⟨(-1, 0), by simp [dirs4], by simp⟩
  · exact ⟨(0, -1), by simp [dirs4], by simp⟩
  · exact ⟨(1, 0), by simp [dirs4], by simp⟩
  · simp at h

theorem reach_mono {g g' : Int → Int → Nat}
    (hg : ∀ y x, g y x ≠ 0 → g' y x ≠ 0) {p q : Int × Int}
    (h : Reach g p q) : Reach g' p q := by
  induction h with
  | refl => exact Relation.ReflTransGen.refl
  | tail h1 h2 ih =>
    exact Relation.ReflTransGen.tail ih
      ⟨h2.1, hg _ _ h2.2.1, hg _ _ h2.2.2⟩

theorem reach_symm {g : Int → Int → Nat} {p q : Int × Int}
    (h : Reach g p q) : Reach g q p := by
  have hsym : Symmetric (StepR g) := by
    intro a b hab
    exact ⟨adj_symm hab.1, hab.2.2, hab.2.1⟩
  exact (Relation.ReflTransGen.symmetric hsym) h

theorem reach_congr {g g' : Int → Int → Nat}
    (hg : ∀ y x, g y x ≠ 0 ↔ g' y x ≠ 0) (p q : Int × Int) :
    Reach g p q ↔ Reach g' p q :=
  ⟨reach_mono (fun y x => (hg y x).mp), reach_mono (fun y x => (hg y x).mpr)⟩

theorem upd2_one_mono (g : Int → Int → Nat) (y x : Int) :
    ∀ b a, g b a ≠ 0 → upd2 g y x 1 b a ≠ 0 := by
  intro b a h
  rcases upd2_cases g y x 1 b a with h2 | h2 <;> rw [h2]
  · exact h
  · exact one_ne_zero

/-- Opening a cell orthogonally adjacent to a non-wall cell preserves the
connectivity invariant. -/
theorem GInv.upd_adj {r : Int × Int} {g : Int → Int → Nat}
    (hinv : GInv r g) {q p : Int × Int} (hq : g q.2 q.1 ≠ 0)
    (hadj : Adj q p) : GInv r (upd2 g p.2 p.1 1) := by
  intro p' hp'
  have hq' : Reach (upd2 g p.2 p.1 1) r q :=
    reach_mono (upd2_one_mono g p.2 p.1) (hinv q hq)
  have hreachp : Reach (upd2 g p.2 p.1 1) r p :=
    Relation.ReflTransGen.tail hq'
      ⟨hadj, upd2_one_mono g p.2 p.1 _ _ hq, by rw [upd2_same]; exact one_ne_zero⟩
  by_cases hc : p'.2 = p.2 ∧ p'.1 = p.1
  · have : p' = p := Prod.ext hc.2 hc.1
    rw [this]
    exact hreachp
  · rw [upd2_of_ne g p.2 p.1 1 p'.2 p'.1 hc] at hp'
    exact reach_mono (upd2_one_mono g p.2 p.1) (hinv p' hp')

/-- Opening the root cell itself preserves the invariant. -/
theorem GInv.upd_self {r : Int × Int} {g : Int → Int → Nat}
    (hinv : GInv r g) : GInv r (upd2 g r.2 r.1 1) := by
  intro p' hp'
  by_cases hc : p'.2 = r.2 ∧ p'.1 = r.1
  · have : p' = r := Prod.ext hc.2 hc.1
    rw [this]
    exact Relation.ReflTransGen.refl
  · rw [upd2_of_ne g r.2 r.1 1 p'.2 p'.1 hc] at hp'
    exact reach_mono (upd2_one_mono g r.2 r.1) (hinv p' hp')

/-- The direction loop preserves the connectivity invariant, given that
the recursive continuation does (`HR`) and is monotone (`HRm`); the
directions processed must be among the four axis directions. -/
theorem foldl_dirStep_reach (size : Nat) (r : Int × Int)
    (R : Int × Int → MState → Option MState) (c : Int × Int)
    (HR : ∀ c0 st st', R c0 st = some st' → GInv r st.grid →
      (gcoord c0 = r ∨ ∃ q, Adj q (gcoord c0) ∧ st.grid q.2 q.1 ≠ 0) →
      GInv r st'.grid)
    (HRm : ∀ c0 st st', R c0 st = some st' → MonoSt st st') :
    ∀ (dirs : List (Int × Int)) (st0 st' : MState),
      (∀ d ∈ dirs, d ∈ dirs4) →
      List.foldl (dirStep size R c) (some st0) dirs = some st' →
      GInv r st0.grid →
      st0.grid (gcoord c).2 (gcoord c).1 ≠ 0 →
      GInv r st'.grid := by
  intro dirs
  induction dirs with
  | nil =>
    intro st0 st' _ h h0 _
    exact (Option.some.inj h) ▸ h0
  | cons d rest ih =>
    intro st0 st' hsub h h0 hc0
    rw [List.foldl_cons, dirStep_some] at h
    split at h
    · cases hR : R (c.1 + d.1, c.2 + d.2)
          ⟨upd2 st0.grid (2 * c.2 + 1 + d.2) (2 * c.1 + 1 + d.1) 1,
           st0.visited, st0.rng⟩ with
      | none =>
        rw [hR, foldl_dirStep_none] at h
        exact Option.noConfusion h
      | some st1 =>
        rw [hR] at h
        have hd4 : d ∈ dirs4 := hsub d (List.mem_cons_self d rest)
        have hadjc : Adj (gcoord c) (2 * c.1 + 1 + d.1, 2 * c.2 + 1 + d.2) :=
          ⟨d, hd4, rfl⟩
        have hginv1 : GInv r
            (upd2 st0.grid (2 * c.2 + 1 + d.2) (2 * c.1 + 1 + d.1) 1) :=
          GInv.upd_adj h0 hc0 hadjc
        have hwall : upd2 st0.grid (2 * c.2 + 1 + d.2) (2 * c.1 + 1 + d.1) 1
            (2 * c.2 + 1 + d.2) (2 * c.1 + 1 + d.1) ≠ 0 := by
          rw [upd2_same]
          exact one_ne_zero
        have hginv2 : GInv r st1.grid := by
          refine HR _ _ _ hR hginv1 (Or.inr ⟨(2 * c.1 + 1 + d.1, 2 * c.2 + 1 + d.2), ?_, hwall⟩)
          refine ⟨d, hd4, ?_⟩
          show gcoord (c.1 + d.1, c.2 + d.2) = _
          unfold gcoord
          refine Prod.ext ?_ ?_ <;> (show _ = _) <;> simp <;> ring
        refine ih st1 st' (fun d' hd' => hsub d' (List.mem_cons_of_mem d hd')) h hginv2 ?_
        rcases (HRm _ _ _ hR).2 (gcoord c).2 (gcoord c).1 with h2 | h2 <;> rw [h2]
        · exact upd2_one_mono st0.grid _ _ _ _ hc0
        · exact one_ne_zero
    · exact ih st0 st' (fun d' hd' => hsub d' (List.mem_cons_of_mem d hd')) h h0 hc0

/-- Lemma: `backtrack` preserves the connectivity invariant: it only ever opens
cells adjacent to already-open cells (or the root itself). -/
theorem backtrack_reach (size : Nat) (r : Int × Int) :
    ∀ (fuel : Nat) (c : Int × Int) (st st' : MState),
      backtrack size fuel c st = some st' → GInv r st.grid →
      (gcoord c = r ∨ ∃ q, Adj q (gcoord c) ∧ st.grid q.2 q.1 ≠ 0) →
      GInv r st'.grid := by
  intro fuel
  induction fuel with
  | zero => intro c st st' h; exact Option.noConfusion h
  | succ fuel ih =>
    intro c st st' h h0 hpre
    rw [backtrack] at h
    have hginv1 : GInv r (upd2 st.grid (2 * c.2 + 1) (2 * c.1 + 1) 1) := by
      rcases hpre with hr | ⟨q, hadjq, hq⟩
      · have : upd2 st.grid (2 * c.2 + 1) (2 * c.1 + 1) 1 =
            upd2 st.grid r.2 r.1 1 := by
          rw [← hr]
          rfl
        rw [this]
        exact GInv.upd_self h0
      · have : (2 * c.1 + 1, 2 * c.2 + 1) = gcoord c := rfl
        exact GInv.upd_adj h0 hq (by rw [show gcoord c = (2 * c.1 + 1, 2 * c.2 + 1) from rfl] at hadjq; exact hadjq)
    have hsub : ∀ d ∈ (shuffle st.rng dirs4).2, d ∈ dirs4 :=
      fun d hd => (shuffle_perm st.rng dirs4).mem_iff.mp hd
    refine foldl_dirStep_reach size r (backtrack size fuel) c
      (fun c0 s s' hs => ih c0 s s' hs)
      (fun c0 s s' hs => backtrack_mono size fuel c0 s s' hs)
      _ _ _ hsub h hginv1 ?_
    show upd2 st.grid (2 * c.2 + 1) (2 * c.1 + 1) 1 (gcoord c).2 (gcoord c).1 ≠ 0
    rw [show (gcoord c).2 = 2 * c.2 + 1 from rfl,
      show (gcoord c).1 = 2 * c.1 + 1 from rfl, upd2_same]
    exact one_ne_zero

theorem closed4_mono {size : Nat} {st st' : MState} {v : Int × Int}
    (h : Closed4 size st v)
    (hm : ∀ y x, st.visited y x = true → st'.visited y x = true) :
    Closed4 size st' v :=
  fun d hd hval => hm _ _ (h d hd hval)

/-- Marking an unvisited valid cell decreases the unvisited count by
exactly one (and the count was positive). -/
theorem unvisCount_upd (size : Nat) (vis : Int → Int → Bool)
    (c : Int × Int) (hc : isValidCell size c.1 c.2)
    (hv : vis c.2 c.1 = false) :
    unvisCount size (upd2 vis c.2 c.1 true) = unvisCount size vis - 1 ∧
      1 ≤ unvisCount size vis := by
  classical
  set s := (Finset.Ico (0 : Int) (size : Int)) ×ˢ
    (Finset.Ico (0 : Int) (size : Int)) with hs
  have hmem : c ∈ s.filter (fun p => vis p.2 p.1 = false) := by
    rw [Finset.mem_filter]
    refine ⟨?_, hv⟩
    rw [hs, Finset.mem_product, Finset.mem_Ico, Finset.mem_Ico]
    exact ⟨⟨hc.1, hc.2.1⟩, ⟨hc.2.2.1, hc.2.2.2⟩⟩
  have hset : s.filter (fun p => upd2 vis c.2 c.1 true p.2 p.1 = false) =
      (s.filter (fun p => vis p.2 p.1 = false)).erase c := by
    ext p
    rw [Finset.mem_erase, Finset.mem_filter, Finset.mem_filter]
    constructor
    · intro ⟨hps, hpv⟩
      by_cases hpc : p.2 = c.2 ∧ p.1 = c.1
      · rw [upd2, if_pos hpc] at hpv
        exact Bool.noConfusion hpv
      · rw [upd2_of_ne vis c.2 c.1 true p.2 p.1 hpc] at hpv
        refine ⟨?_, hps, hpv⟩
        intro hpc2
        exact hpc ⟨by rw [hpc2], by rw [hpc2]⟩
    · intro ⟨hpc, hps, hpv⟩
      refine ⟨hps, ?_⟩
      rw [upd2_of_ne vis c.2 c.1 true p.2 p.1 ?_]
      · exact hpv
      · intro hpc2
        exact hpc (Prod.ext hpc2.2 hpc2.1)
  constructor
  · show (s.filter (fun p => upd2 vis c.2 c.1 true p.2 p.1 = false)).card = _
    rw [hset, Finset.card_erase_of_mem hmem]
    rfl
  · exact Finset.card_pos.mpr ⟨c, hmem⟩

/-- The direction loop with a completeness-capable continuation: it never
exhausts, visits every valid neighbor in the processed directions, and
every newly visited cell ends closed under adjacency. -/
theorem foldl_dirStep_complete (size : Nat) (fuel : Nat) (c : Int × Int)
    (HRc : ∀ (c0 : Int × Int) (st : MState), isValidCell size c0.1 c0.2 →
      st.visited c0.2 c0.1 = false → unvisCount size st.visited ≤ fuel →
      ∃ st', backtrack size fuel c0 st = some st' ∧
        st'.visited c0.2 c0.1 = true ∧
        unvisCount size st'.visited < unvisCount size st.visited ∧
        (∀ v : Int × Int, st'.visited v.2 v.1 = true →
          st.visited v.2 v.1 = true ∨ Closed4 size st' v)) :
    ∀ (dirs : List (Int × Int)) (st0 : MState),
      unvisCount size st0.visited ≤ fuel →
      ∃ st', List.foldl (dirStep size (backtrack size fuel) c)
          (some st0) dirs = some st' ∧
        unvisCount size st'.visited ≤ unvisCount size st0.visited ∧
        MonoSt st0 st' ∧
        (∀ d ∈ dirs, isValidCell size (c.1 + d.1) (c.2 + d.2) →
          st'.visited (c.2 + d.2) (c.1 + d.1) = true) ∧
        (∀ v : Int × Int, st'.visited v.2 v.1 = true →
          st0.visited v.2 v.1 = true ∨ Closed4 size st' v) := by
  intro dirs
  induction dirs with
  | nil =>
    intro st0 hcnt
    exact ⟨st0, rfl, le_refl _, MonoSt.refl st0, fun d hd => absurd hd
      (List.not_mem_nil d), fun v hv => Or.inl hv⟩
  | cons d rest ih =>
    intro st0 hcnt
    rw [List.foldl_cons, dirStep_some]
    by_cases hcond : isValidCell size (c.1 + d.1) (c.2 + d.2) ∧
        st0.visited (c.2 + d.2) (c.1 + d.1) = false
    · rw [if_pos hcond]
      have hR := HRc (c.1 + d.1, c.2 + d.2)
        ⟨upd2 st0.grid (2 * c.2 + 1 + d.2) (2 * c.1 + 1 + d.1) 1,
         st0.visited, st0.rng⟩ hcond.1 hcond.2 hcnt
      obtain ⟨st1, hR1, hR2, hR3, hR4⟩ := hR
      have hceq : unvisCount size
          (⟨upd2 st0.grid (2 * c.2 + 1 + d.2) (2 * c.1 + 1 + d.1) 1,
            st0.visited, st0.rng⟩ : MState).visited =
          unvisCount size st0.visited := rfl
      rw [hceq] at hR3
      obtain ⟨st', hf1, hf2, hf3, hf4, hf5⟩ := ih st1 (by omega)
      refine ⟨st', by rw [hR1]; exact hf1, by omega, ?_, ?_, ?_⟩
      · have m0 : MonoSt st0
            ⟨upd2 st0.grid (2 * c.2 + 1 + d.2) (2 * c.1 + 1 + d.1) 1,
             st0.visited, st0.rng⟩ :=
          ⟨fun _ _ hv => hv, fun y x => upd2_cases _ _ _ _ _ _⟩
        exact (m0.trans (backtrack_mono size fuel _ _ _ hR1)).trans hf3
      · intro d' hd' hval
        rcases List.mem_cons.mp hd' with rfl | hd2
        · exact hf3.1 _ _ hR2
        · exact hf4 d' hd2 hval
      · intro v hv
        rcases hf5 v hv with hv1 | hcl
        · rcases hR4 v hv1 with hv0 | hcl1
          · exact Or.inl hv0
          · exact Or.inr (closed4_mono hcl1 hf3.1)
        · exact Or.inr hcl
    · rw [if_neg hcond]
      obtain ⟨st', hf1, hf2, hf3, hf4, hf5⟩ := ih st0 hcnt
      refine ⟨st', hf1, hf2, hf3, ?_, hf5⟩
      intro d' hd' hval
      rcases List.mem_cons.mp hd' with rfl | hd2
      · have : ¬ st0.visited (c.2 + d'.2) (c.1 + d'.1) = false := by
          intro hfalse
          exact hcond ⟨hval, hfalse⟩
        exact hf3.1 _ _ (Bool.not_eq_false _ |>.mp this)
      · exact hf4 d' hd2 hval

/-- Fuel sufficiency and closure for the carver: called on a valid
unvisited cell with fuel at least the number of unvisited cells, it
succeeds, visits the cell, strictly decreases the unvisited count, and
leaves every newly visited cell closed under valid adjacency. -/
theorem backtrack_complete (size : Nat) :
    ∀ (fuel : Nat) (c : Int × Int) (st : MState),
      isValidCell size c.1 c.2 → st.visited c.2 c.1 = false →
      unvisCount size st.visited ≤ fuel →
      ∃ st', backtrack size fuel c st = some st' ∧
        st'.visited c.2 c.1 = true ∧
        unvisCount size st'.visited < unvisCount size st.visited ∧
        (∀ v : Int × Int, st'.visited v.2 v.1 = true →
          st.visited v.2 v.1 = true ∨ Closed4 size st' v) := by
  intro fuel
  induction fuel with
  | zero =>
    intro c st hc hv hcnt
    have := (unvisCount_upd size st.visited c hc hv).2
    omega
  | succ fuel ih =>
    intro c st hc hv hcnt
    have hcount := unvisCount_upd size st.visited c hc hv
    have hsub : ∀ d ∈ (shuffle st.rng dirs4).2, d ∈ dirs4 :=
      fun d hd => (shuffle_perm st.rng dirs4).mem_iff.mp hd
    obtain ⟨st', hf1, hf2, hf3, hf4, hf5⟩ :=
      foldl_dirStep_complete size fuel c (fun c0 s0 => ih c0 s0)
        (shuffle st.rng dirs4).2
        ⟨upd2 st.grid (2 * c.2 + 1) (2 * c.1 + 1) 1,
         upd2 st.visited c.2 c.1 true, (shuffle st.rng dirs4).1⟩
        (by show unvisCount size (upd2 st.visited c.2 c.1 true) ≤ fuel; omega)
    refine ⟨st', ?_, ?_, ?_, ?_⟩
    · rw [backtrack]
      exact hf1
    · exact hf3.1 c.2 c.1 (upd2_same st.visited c.2 c.1 true)
    · have : unvisCount size (upd2 st.visited c.2 c.1 true) =
          unvisCount size st.visited - 1 := hcount.1
      have h1 : 1 ≤ unvisCount size st.visited := hcount.2
      have h2 : unvisCount size st'.visited ≤
          unvisCount size (upd2 st.visited c.2 c.1 true) := hf2
      omega
    · intro v hv'
      rcases hf5 v hv' with hv1 | hcl
      · by_cases hvc : v.2 = c.2 ∧ v.1 = c.1
        · right
          have hveq : v = c := Prod.ext hvc.2 hvc.1
          rw [hveq]
          intro d hd hval
          exact hf4 d ((shuffle_perm st.rng dirs4).mem_iff.mpr hd) hval
        · left
          show st.visited v.2 v.1 = true
          have : upd2 st.visited c.2 c.1 true v.2 v.1 = true := hv1
          rw [upd2_of_ne st.visited c.2 c.1 true v.2 v.1 hvc] at this
          exact this
      · exact Or.inr hcl

theorem isValidCell_iff (size : Nat) (x y : Int) :
    isValidCell size x y ↔
      0 ≤ x ∧ x < (size : Int) ∧ 0 ≤ y ∧ y < (size : Int) := Iff.rfl

/-- A set of cells containing a valid cell and closed under valid
orthogonal adjacency contains every valid cell (walk along the row, then
the column). -/
theorem closed_all (size : Nat) (S : Int × Int → Prop)
    (c0 : Int × Int) (hc0 : S c0) (hc0v : isValidCell size c0.1 c0.2)
    (hcl : ∀ v, S v → ∀ d ∈ dirs4,
      isValidCell size (v.1 + d.1) (v.2 + d.2) → S (v.1 + d.1, v.2 + d.2)) :
    ∀ x y : Int, isValidCell size x y → S (x, y) := by
  rw [isValidCell_iff] at hc0v
  have hE : ∀ a b : Int, S (a, b) → 0 ≤ a + 1 → a + 1 < (size : Int) →
      0 ≤ b → b < (size : Int) → S (a + 1, b) := by
    intro a b hS h1 h2 h3 h4
    have := hcl (a, b) hS (1, 0) (by simp [dirs4])
      (by rw [isValidCell_iff]; constructor <;> simp <;> omega)
    simpa using this
  have hW : ∀ a b : Int, S (a, b) → 0 ≤ a - 1 → a - 1 < (size : Int) →
      0 ≤ b → b < (size : Int) → S (a - 1, b) := by
    intro a b hS h1 h2 h3 h4
    have := hcl (a, b) hS (-1, 0) (by simp [dirs4])
      (by rw [isValidCell_iff]; constructor <;> simp <;> omega)
    have h5 : a + (-1 : Int) = a - 1 := by ring
    have h6 : b + (0 : Int) = b := by ring
    rw [h5, h6] at this
    exact this
  have hSo : ∀ a b : Int, S (a, b) → 0 ≤ a → a < (size : Int) →
      0 ≤ b + 1 → b + 1 < (size : Int) → S (a, b + 1) := by
    intro a b hS h1 h2 h3 h4
    have := hcl (a, b) hS (0, 1) (by simp [dirs4])
      (by rw [isValidCell_iff]; constructor <;> simp <;> omega)
    simpa using this
  have hN : ∀ a b : Int, S (a, b) → 0 ≤ a → a < (size : Int) →
      0 ≤ b - 1 → b - 1 < (size : Int) → S (a, b - 1) := by
    intro a b hS h1 h2 h3 h4
    have := hcl (a, b) hS (0, -1) (by simp [dirs4])
      (by rw [isValidCell_iff]; constructor <;> simp <;> omega)
    have h5 : a + (0 : Int) = a := by ring
    have h6 : b + (-1 : Int) = b - 1 := by ring
    rw [h5, h6] at this
    exact this
  have hrow : ∀ x : Int, 0 ≤ x → x < (size : Int) → S (x, c0.2) := by
    intro x hx0 hx1
    rcases le_or_lt c0.1 x with hge | hlt
    · refine Int.le_induction (P := fun t => t < (size : Int) → S (t, c0.2))
        (fun _ => hc0) ?_ x hge hx1
      intro n hn hPn hns
      exact hE n c0.2 (hPn (by omega)) (by omega) hns hc0v.2.2.1 hc0v.2.2.2
    · refine Int.le_induction_down (P := fun t => 0 ≤ t → S (t, c0.2))
        (fun _ => hc0) ?_ x (by omega) hx0
      intro n hn hPn hn0
      exact hW n c0.2 (hPn (by omega)) hn0 (by omega) hc0v.2.2.1 hc0v.2.2.2
  intro x y hval
  rw [isValidCell_iff] at hval
  have hbase : S (x, c0.2) := hrow x hval.1 hval.2.1
  rcases le_or_lt c0.2 y with hge | hlt
  · refine Int.le_induction (P := fun t => t < (size : Int) → S (x, t))
      (fun _ => hbase) ?_ y hge hval.2.2.2
    intro n hn hPn hns
    exact hSo x n (hPn (by omega)) hval.1 hval.2.1 (by omega) hns
  · refine Int.le_induction_down (P := fun t => 0 ≤ t → S (x, t))
      (fun _ => hbase) ?_ y (by omega) hval.2.2.1
    intro n hn hPn hn0
    exact hN x n (hPn (by omega)) hval.1 hval.2.1 hn0 (by omega)

/-- The empty `visited` table has `size * size` unvisited cells. -/
theorem unvisCount_init (size : Nat) :
    unvisCount size (fun _ _ => false) = size * size := by
  unfold unvisCount
  rw [Finset.filter_true_of_mem (fun _ _ => rfl), Finset.card_product]
  rw [Int.card_Ico]
  simp

/-- Full result of the carving phase from the center cell: the carve
succeeds, every logical cell's grid cell is path-coded, the grid satisfies
the center-rooted connectivity invariant, and all codes are at most 1. -/
theorem carve_full (size : Nat) (hsize : 1 ≤ size) (rng0 : Nat) :
    ∃ st1, backtrack size (size * size)
        (((size / 2 : Nat) : Int), ((size / 2 : Nat) : Int))
        ⟨fun _ _ => 0, fun _ _ => false, rng0⟩ = some st1 ∧
      (∀ cx cy : Int, 0 ≤ cx → cx < (size : Int) → 0 ≤ cy →
        cy < (size : Int) → st1.grid (2 * cy + 1) (2 * cx + 1) = 1) ∧
      GInv (gcoord (((size / 2 : Nat) : Int), ((size / 2 : Nat) : Int)))
        st1.grid ∧
      (∀ y x, st1.grid y x ≤ 1) := by
  have hcv : isValidCell size ((size / 2 : Nat) : Int) ((size / 2 : Nat) : Int) := by
    rw [isValidCell_iff]
    have : size / 2 < size := Nat.div_lt_self (by omega) (by omega)
    omega
  obtain ⟨st1, h1, h2, h3, h4⟩ := backtrack_complete size (size * size)
    (((size / 2 : Nat) : Int), ((size / 2 : Nat) : Int))
    ⟨fun _ _ => 0, fun _ _ => false, rng0⟩ hcv rfl
    (by rw [show (⟨fun _ _ => 0, fun _ _ => false, rng0⟩ : MState).visited =
        (fun _ _ => false) from rfl, unvisCount_init])
  refine ⟨st1, h1, ?_, ?_, ?_⟩
  · have hallv : ∀ x y : Int, isValidCell size x y →
        st1.visited y x = true := by
      have hcl : ∀ v : Int × Int, st1.visited v.2 v.1 = true →
          ∀ d ∈ dirs4, isValidCell size (v.1 + d.1) (v.2 + d.2) →
            st1.visited (v.2 + d.2) (v.1 + d.1) = true := by
        intro v hv d hd hval
        rcases h4 v hv with hup | hcl2
        · exact Bool.noConfusion hup
        · exact hcl2 d hd hval
      intro x y hval
      exact closed_all size (fun v => st1.visited v.2 v.1 = true)
        (((size / 2 : Nat) : Int), ((size / 2 : Nat) : Int)) h2 hcv
        (fun v hv d hd hval2 => hcl v hv d hd hval2) x y hval
    have hvm : VMarked st1 :=
      backtrack_vm size (size * size) _ _ _ h1
        (fun cx cy hfv => Bool.noConfusion hfv)
    intro cx cy hx0 hx1 hy0 hy1
    exact hvm cx cy (hallv cx cy (by rw [isValidCell_iff]; omega))
  · refine backtrack_reach size _ (size * size) _ _ _ h1 ?_ (Or.inl rfl)
    intro p hp
    exact absurd rfl hp
  · intro y x
    rcases (backtrack_mono size (size * size) _ _ _ h1).2 y x with h5 | h5 <;>
      rw [h5]
    exact Nat.zero_le 1

/-! ### Braiding preserves connectivity -/

theorem getWalls_mem (g : Int → Int → Nat) (gridSize : Nat) (x y : Int)
    (w : Int × Int) (hw : w ∈ getWalls g gridSize x y) :
    Adj (x, y) w ∧ g w.2 w.1 = 0 := by
  unfold getWalls at hw
  rw [List.mem_filterMap] at hw
  obtain ⟨d, hd, hdw⟩ := hw
  split at hdw
  · next hcond =>
    obtain rfl : (x + d.1, y + d.2) = w := Option.some.inj hdw
    exact ⟨⟨d, hd, rfl⟩, hcond.2⟩
  · exact absurd hdw (by simp)

theorem braidLoop_mono (gridSize : Nat) :
    ∀ (cells : List (Int × Int)) (g : Int → Int → Nat) (rng : Nat)
      (y x : Int),
      (braidLoop gridSize cells g rng).1 y x = g y x ∨
        (braidLoop gridSize cells g rng).1 y x = 1 := by
  intro cells
  induction cells with
  | nil => intro g rng y x; exact Or.inl rfl
  | cons c rest ih =>
    intro g rng y x
    rw [braidLoop]
    split
    · rcases ih (upd2 g ((getWalls g gridSize c.1 c.2).getD
          (nextInt rng 0 (getWalls g gridSize c.1 c.2).length).2 (0, 0)).2
          ((getWalls g gridSize c.1 c.2).getD
          (nextInt rng 0 (getWalls g gridSize c.1 c.2).length).2 (0, 0)).1 1)
          (nextInt rng 0 (getWalls g gridSize c.1 c.2).length).1 y x with
        h | h
      · rw [h]
        rcases upd2_cases g _ _ 1 y x with h2 | h2
        · exact Or.inl h2
        · exact Or.inr h2
      · exact Or.inr h
    · exact ih g rng y x

theorem braidLoop_ginv (gridSize : Nat) (r : Int × Int) :
    ∀ (cells : List (Int × Int)) (g : Int → Int → Nat) (rng : Nat),
      (∀ c ∈ cells, g c.2 c.1 ≠ 0) → GInv r g →
      GInv r (braidLoop gridSize cells g rng).1 := by
  intro cells
  induction cells with
  | nil => intro g rng _ hinv; exact hinv
  | cons c rest ih =>
    intro g rng hcells hinv
    rw [braidLoop]
    split
    · next hlen =>
      set walls := getWalls g gridSize c.1 c.2 with hwalls
      set k := (nextInt rng 0 walls.length).2 with hk
      have hklt : k < walls.length := nextInt_lt rng walls.length (by omega)
      have hwmem : walls.getD k (0, 0) ∈ walls := by
        rw [List.getD_eq_getElem?_getD, List.getElem?_eq_getElem hklt]
        exact List.getElem_mem hklt
      obtain ⟨hadjw, _⟩ := getWalls_mem g gridSize c.1 c.2 _ (hwalls ▸ hwmem)
      have hcnz : g c.2 c.1 ≠ 0 := hcells c (List.mem_cons_self c rest)
      have hadj2 : Adj (c.1, c.2) (walls.getD k (0, 0)) := hadjw
      have hginv2 : GInv r (upd2 g (walls.getD k (0, 0)).2
          (walls.getD k (0, 0)).1 1) :=
        GInv.upd_adj hinv (by show g (c.1, c.2).2 (c.1, c.2).1 ≠ 0; exact hcnz) hadj2
      refine ih _ _ ?_ hginv2
      intro c' hc'
      exact upd2_one_mono g _ _ _ _ (hcells c' (List.mem_cons_of_mem c hc'))
    · exact ih g rng (fun c' hc' => hcells c' (List.mem_cons_of_mem c hc')) hinv

/-- Every enumerated dead end is a path cell of the scanned grid. -/
theorem findDeadEnds_mem (size gridSize : Nat) (g : Int → Int → Nat)
    (rng : Nat) (c : Int × Int)
    (hc : c ∈ (findDeadEnds size gridSize g rng).2) : g c.2 c.1 = 1 := by
  unfold findDeadEnds at hc
  have hc2 := (shuffle_perm rng _).mem_iff.mp hc
  rw [List.mem_flatMap] at hc2
  obtain ⟨y, _, hy⟩ := hc2
  rw [List.mem_filterMap] at hy
  obtain ⟨x, _, hx⟩ := hy
  split at hx
  · next hcond =>
    obtain rfl : ((x : Int), (y : Int)) = c := Option.some.inj hx
    exact hcond.1
  · exact absurd hx (by simp)

/-- Lemma: `addBraiding` only opens walls (cells keep their code or become 1). -/
theorem addBraiding_mono (size level : Nat) (g : Int → Int → Nat)
    (rng : Nat) (y x : Int) :
    (addBraiding size level g rng).1 y x = g y x ∨
      (addBraiding size level g rng).1 y x = 1 :=
  braidLoop_mono (2 * size + 1) _ g _ y x

/-- Lemma: `addBraiding` preserves the connectivity invariant. -/
theorem addBraiding_ginv (size level : Nat) (r : Int × Int)
    (g : Int → Int → Nat) (rng : Nat) (hinv : GInv r g) :
    GInv r (addBraiding size level g rng).1 := by
  unfold addBraiding
  refine braidLoop_ginv (2 * size + 1) r _ g _ ?_ hinv
  intro c hc
  have hc2 := List.take_subset _ _ hc
  rw [findDeadEnds_mem size (2 * size + 1) g rng c hc2]
  exact one_ne_zero

/-! ### Start and exit selection -/

theorem getD_mem_of_lt {α : Type} [Inhabited α] (l : List α) (k : Nat)
    (d : α) (h : k < l.length) : l.getD k d ∈ l := by
  rw [List.getD_eq_getElem?_getD, List.getElem?_eq_getElem h]
  exact List.getElem_mem h

/-- String of facts about the path cells scanned on each side: their code
is 1 and they lie on the side's fixed row or column. -/
theorem getEdgePathCells_path (size : Nat) (g : Int → Int → Nat)
    (side : Nat) (p : Int × Int) (hp : p ∈ getEdgePathCells size g side) :
    g p.2 p.1 = 1 := by
  unfold getEdgePathCells at hp
  match side with
  | 0 =>
    rw [List.mem_filterMap] at hp
    obtain ⟨k, _, hk⟩ := hp
    split at hk
    · next hcond => obtain rfl := Option.some.inj hk; exact hcond
    · exact absurd hk (by simp)
  | 1 =>
    rw [List.mem_filterMap] at hp
    obtain ⟨k, _, hk⟩ := hp
    split at hk
    · next hcond => obtain rfl := Option.some.inj hk; exact hcond
    · exact absurd hk (by simp)
  | 2 =>
    rw [List.mem_filterMap] at hp
    obtain ⟨k, _, hk⟩ := hp
    split at hk
    · next hcond => obtain rfl := Option.some.inj hk; exact hcond
    · exact absurd hk (by simp)
  | 3 =>
    rw [List.mem_filterMap] at hp
    obtain ⟨k, _, hk⟩ := hp
    split at hk
    · next hcond => obtain rfl := Option.some.inj hk; exact hcond
    · exact absurd hk (by simp)
  | (n + 4) => exact absurd hp (List.not_mem_nil p)

theorem getEdgePathCells_coord0 (size : Nat) (g : Int → Int → Nat)
    (p : Int × Int) (hp : p ∈ getEdgePathCells size g 0) : p.2 = 1 := by
  unfold getEdgePathCells at hp
  rw [List.mem_filterMap] at hp
  obtain ⟨k, _, hk⟩ := hp
  split at hk
  · obtain rfl := Option.some.inj hk; rfl
  · exact absurd hk (by simp)

theorem getEdgePathCells_coord1 (size : Nat) (g : Int → Int → Nat)
    (p : Int × Int) (hp : p ∈ getEdgePathCells size g 1) :
    p.1 = 2 * (size : Int) - 1 := by
  unfold getEdgePathCells at hp
  rw [List.mem_filterMap] at hp
  obtain ⟨k, _, hk⟩ := hp
  split at hk
  · obtain rfl := Option.some.inj hk
    show ((2 * size + 1 : Nat) : Int) - 2 = 2 * (size : Int) - 1
    push_cast
    ring
  · exact absurd hk (by simp)

theorem getEdgePathCells_coord2 (size : Nat) (g : Int → Int → Nat)
    (p : Int × Int) (hp : p ∈ getEdgePathCells size g 2) :
    p.2 = 2 * (size : Int) - 1 := by
  unfold getEdgePathCells at hp
  rw [List.mem_filterMap] at hp
  obtain ⟨k, _, hk⟩ := hp
  split at hk
  · obtain rfl := Option.some.inj hk
    show ((2 * size + 1 : Nat) : Int) - 2 = 2 * (size : Int) - 1
    push_cast
    ring
  · exact absurd hk (by simp)

theorem getEdgePathCells_coord3 (size : Nat) (g : Int → Int → Nat)
    (p : Int × Int) (hp : p ∈ getEdgePathCells size g 3) : p.1 = 1 := by
  unfold getEdgePathCells at hp
  rw [List.mem_filterMap] at hp
  obtain ⟨k, _, hk⟩ := hp
  split at hk
  · obtain rfl := Option.some.inj hk; rfl
  · exact absurd hk (by simp)

/-- If every logical cell is path-coded, all four edge scans are
nonempty. -/
theorem getEdgePathCells_ne_nil (size : Nat) (hsize : 1 ≤ size)
    (g : Int → Int → Nat)
    (hall : ∀ cx cy : Int, 0 ≤ cx → cx < (size : Int) → 0 ≤ cy →
      cy < (size : Int) → g (2 * cy + 1) (2 * cx + 1) = 1)
    (side : Nat) (hside : side < 4) :
    getEdgePathCells size g side ≠ [] := by
  have hg11 : g 1 1 = 1 := by
    have := hall 0 0 (by omega) (by omega) (by omega) (by omega)
    simpa using this
  have hglast1 : g 1 (2 * (size : Int) - 1) = 1 := by
    have := hall ((size : Int) - 1) 0 (by omega) (by omega) (by omega) (by omega)
    have h2 : 2 * ((size : Int) - 1) + 1 = 2 * (size : Int) - 1 := by ring
    rw [h2] at this
    simpa using this
  have hg1last : g (2 * (size : Int) - 1) 1 = 1 := by
    have := hall 0 ((size : Int) - 1) (by omega) (by omega) (by omega) (by omega)
    have h2 : 2 * ((size : Int) - 1) + 1 = 2 * (size : Int) - 1 := by ring
    rw [h2] at this
    simpa using this
  have hcast : ((2 * size + 1 : Nat) : Int) - 2 = 2 * (size : Int) - 1 := by
    push_cast
    ring
  interval_cases side
  · intro hnil
    have : ((1 : Int), (1 : Int)) ∈ getEdgePathCells size g 0 := by
      unfold getEdgePathCells
      rw [List.mem_filterMap]
      refine ⟨0, List.mem_range.mpr (by omega), ?_⟩
      rw [if_pos (by simpa using hg11)]
      simp
    rw [hnil] at this
    exact List.not_mem_nil _ this
  · intro hnil
    have : ((2 * (size : Int) - 1), (1 : Int)) ∈ getEdgePathCells size g 1 := by
      unfold getEdgePathCells
      rw [List.mem_filterMap]
      refine ⟨0, List.mem_range.mpr (by omega), ?_⟩
      rw [if_pos (by rw [hcast]; simpa using hglast1)]
      rw [hcast]
      simp
    rw [hnil] at this
    exact List.not_mem_nil _ this
  · intro hnil
    have : ((1 : Int), (2 * (size : Int) - 1)) ∈ getEdgePathCells size g 2 := by
      unfold getEdgePathCells
      rw [List.mem_filterMap]
      refine ⟨0, List.mem_range.mpr (by omega), ?_⟩
      rw [if_pos (by rw [hcast]; simpa using hg1last)]
      rw [hcast]
      simp
    rw [hnil] at this
    exact List.not_mem_nil _ this
  · intro hnil
    have : ((1 : Int), (1 : Int)) ∈ getEdgePathCells size g 3 := by
      unfold getEdgePathCells
      rw [List.mem_filterMap]
      refine ⟨0, List.mem_range.mpr (by omega), ?_⟩
      rw [if_pos (by simpa using hg11)]
      simp
    rw [hnil] at this
    exact List.not_mem_nil _ this

/-- The selected start and exit cells are path cells on opposite sides,
hence distinct, whenever all logical cells are path-coded (so no fallback
fires) and `size ≥ 2` (so opposite border rows/columns differ). -/
theorem pickStartAndExit_spec (size : Nat) (hsize : 2 ≤ size)
    (g : Int → Int → Nat) (rng : Nat)
    (hall : ∀ cx cy : Int, 0 ≤ cx → cx < (size : Int) → 0 ≤ cy →
      cy < (size : Int) → g (2 * cy + 1) (2 * cx + 1) = 1) :
    g (pickStartAndExit size g rng).2.1.2
        (pickStartAndExit size g rng).2.1.1 = 1 ∧
      g (pickStartAndExit size g rng).2.2.2
        (pickStartAndExit size g rng).2.2.1 = 1 ∧
      (pickStartAndExit size g rng).2.1 ≠ (pickStartAndExit size g rng).2.2 := by
  have hsd4 : (nextInt rng 0 4).2 < 4 := nextInt_lt rng 4 (by omega)
  have hstart_ne := getEdgePathCells_ne_nil size (by omega) g hall
    (nextInt rng 0 4).2 hsd4
  have hexit_ne := getEdgePathCells_ne_nil size (by omega) g hall
    (((nextInt rng 0 4).2 + 2) % 4) (by omega)
  have hlenS : ¬ (getEdgePathCells size g (nextInt rng 0 4).2).length = 0 :=
    fun hl => hstart_ne (List.length_eq_zero.mp hl)
  have hlenE : ¬ (getEdgePathCells size g
      (((nextInt rng 0 4).2 + 2) % 4)).length = 0 :=
    fun hl => hexit_ne (List.length_eq_zero.mp hl)
  have heq : pickStartAndExit size g rng =
      ((nextInt (nextInt (nextInt rng 0 4).1 0
          (getEdgePathCells size g (nextInt rng 0 4).2).length).1 0
          (getEdgePathCells size g
            (((nextInt rng 0 4).2 + 2) % 4)).length).1,
        (getEdgePathCells size g (nextInt rng 0 4).2).getD
          (nextInt (nextInt rng 0 4).1 0
            (getEdgePathCells size g (nextInt rng 0 4).2).length).2 (0, 0),
        (getEdgePathCells size g (((nextInt rng 0 4).2 + 2) % 4)).getD
          (nextInt (nextInt (nextInt rng 0 4).1 0
              (getEdgePathCells size g (nextInt rng 0 4).2).length).1 0
            (getEdgePathCells size g
              (((nextInt rng 0 4).2 + 2) % 4)).length).2 (0, 0)) := by
    unfold pickStartAndExit
    simp only [if_neg hlenS, if_neg hlenE]
  have hS : (pickStartAndExit size g rng).2.1 =
      (getEdgePathCells size g (nextInt rng 0 4).2).getD
        (nextInt (nextInt rng 0 4).1 0
          (getEdgePathCells size g (nextInt rng 0 4).2).length).2 (0, 0) := by
    rw [heq]
  have hE : (pickStartAndExit size g rng).2.2 =
      (getEdgePathCells size g (((nextInt rng 0 4).2 + 2) % 4)).getD
        (nextInt (nextInt (nextInt rng 0 4).1 0
            (getEdgePathCells size g (nextInt rng 0 4).2).length).1 0
          (getEdgePathCells size g
            (((nextInt rng 0 4).2 + 2) % 4)).length).2 (0, 0) := by
    rw [heq]
  have hmemS : (pickStartAndExit size g rng).2.1 ∈
      getEdgePathCells size g (nextInt rng 0 4).2 := by
    rw [hS]
    exact getD_mem_of_lt _ _ _ (nextInt_lt _ _ (by omega))
  have hmemE : (pickStartAndExit size g rng).2.2 ∈
      getEdgePathCells size g (((nextInt rng 0 4).2 + 2) % 4) := by
    rw [hE]
    exact getD_mem_of_lt _ _ _ (nextInt_lt _ _ (by omega))
  refine ⟨getEdgePathCells_path size g _ _ hmemS,
    getEdgePathCells_path size g _ _ hmemE, ?_⟩
  have hsize1 : (1 : Int) ≠ 2 * (size : Int) - 1 := by omega
  interval_cases h : (nextInt rng 0 4).2
  · have h1 := getEdgePathCells_coord0 size g _ hmemS
    have h2 := getEdgePathCells_coord2 size g _ hmemE
    intro hc
    rw [hc, h2] at h1
    omega
  · have h1 := getEdgePathCells_coord1 size g _ hmemS
    have h2 := getEdgePathCells_coord3 size g _ hmemE
    intro hc
    rw [hc, h2] at h1
    omega
  · have h1 := getEdgePathCells_coord2 size g _ hmemS
    have h2 := getEdgePathCells_coord0 size g _ hmemE
    intro hc
    rw [hc, h2] at h1
    omega
  · have h1 := getEdgePathCells_coord3 size g _ hmemS
    have h2 := getEdgePathCells_coord1 size g _ hmemE
    intro hc
    rw [hc, h2] at h1
    omega

/-! ### End-to-end theorems about `generate` -/

theorem generate_eq (seed size level : Nat) (st1 : MState)
    (h : backtrack size (size * size)
        (((size / 2 : Nat) : Int), ((size / 2 : Nat) : Int))
        ⟨fun _ _ => 0, fun _ _ => false, initState seed⟩ = some st1) :
    generate seed size level = some
      (upd2 (upd2 (addBraiding size level st1.grid st1.rng).1
          (pickStartAndExit size (addBraiding size level st1.grid st1.rng).1
            (addBraiding size level st1.grid st1.rng).2).2.1.2
          (pickStartAndExit size (addBraiding size level st1.grid st1.rng).1
            (addBraiding size level st1.grid st1.rng).2).2.1.1 2)
        (pickStartAndExit size (addBraiding size level st1.grid st1.rng).1
          (addBraiding size level st1.grid st1.rng).2).2.2.2
        (pickStartAndExit size (addBraiding size level st1.grid st1.rng).1
          (addBraiding size level st1.grid st1.rng).2).2.2.1 3,
       (pickStartAndExit size (addBraiding size level st1.grid st1.rng).1
         (addBraiding size level st1.grid st1.rng).2).2.1,
       (pickStartAndExit size (addBraiding size level st1.grid st1.rng).1
         (addBraiding size level st1.grid st1.rng).2).2.2) := by
  unfold generate
  rw [h]

/-- Claim C1: maze generation is a pure function of `(seed, size, level)`:
for `size ≥ 2` and `level ≥ 1` it always succeeds, and any two runs on the
same inputs return the same grid (pointwise), start and exit — there is no
hidden input. -/
theorem generate_deterministic (seed size level : Nat)
    (hsize : 2 ≤ size) (hlevel : 1 ≤ level) :
    (∃ g s e, generate seed size level = some (g, s, e)) ∧
      (∀ g1 s1 e1 g2 s2 e2,
        generate seed size level = some (g1, s1, e1) →
        generate seed size level = some (g2, s2, e2) →
        (∀ y x, g1 y x = g2 y x) ∧ s1 = s2 ∧ e1 = e2) := by
  constructor
  · obtain ⟨st1, hbt, _, _, _⟩ := carve_full size (by omega) (initState seed)
    exact ⟨_, _, _, generate_eq seed size level st1 hbt⟩
  · intro g1 s1 e1 g2 s2 e2 h1 h2
    rw [h1] at h2
    obtain ⟨hg, hse⟩ := Prod.mk.injEq .. |>.mp (Option.some.inj h2)
    obtain ⟨hs, he⟩ := Prod.mk.injEq .. |>.mp hse
    exact ⟨fun y x => by rw [hg], hs, he⟩

/-- Witness for `generate_deterministic` at `(seed, size, level) =
(1, 2, 1)`. -/
theorem generate_deterministic_witness :
    (∃ g s e, generate 1 2 1 = some (g, s, e)) ∧
      (∀ g1 s1 e1 g2 s2 e2,
        generate 1 2 1 = some (g1, s1, e1) →
        generate 1 2 1 = some (g2, s2, e2) →
        (∀ y x, g1 y x = g2 y x) ∧ s1 = s2 ∧ e1 = e2) :=
  generate_deterministic 1 2 1 (by omega) (by omega)

/-- Decomposition of a successful generation: the final grid is the braided
carve grid (all codes at most 1, center-rooted connectivity invariant,
all logical cells path) with the two distinct chosen cells recoded 2/3. -/
theorem generate_anatomy (seed size level : Nat) (g : Int → Int → Nat)
    (s e : Int × Int) (hsize : 2 ≤ size)
    (hgen : generate seed size level = some (g, s, e)) :
    ∃ (g2 : Int → Int → Nat) (r : Int × Int),
      (∀ y x, g2 y x ≤ 1) ∧
      GInv r g2 ∧
      g2 s.2 s.1 = 1 ∧ g2 e.2 e.1 = 1 ∧ s ≠ e ∧
      g = upd2 (upd2 g2 s.2 s.1 2) e.2 e.1 3 := by
  obtain ⟨st1, hbt, hall, hginv, hle⟩ := carve_full size (by omega) (initState seed)
  have hgeq := generate_eq seed size level st1 hbt
  rw [hgen] at hgeq
  obtain ⟨hg, hse⟩ := Prod.mk.injEq .. |>.mp (Option.some.inj hgeq)
  obtain ⟨hs, he⟩ := Prod.mk.injEq .. |>.mp hse
  set g2 := (addBraiding size level st1.grid st1.rng).1 with hg2
  set rng2 := (addBraiding size level st1.grid st1.rng).2 with hrng2
  have hall2 : ∀ cx cy : Int, 0 ≤ cx → cx < (size : Int) → 0 ≤ cy →
      cy < (size : Int) → g2 (2 * cy + 1) (2 * cx + 1) = 1 := by
    intro cx cy h1 h2 h3 h4
    rcases addBraiding_mono size level st1.grid st1.rng (2 * cy + 1)
        (2 * cx + 1) with hm | hm <;> rw [hg2, hm]
    exact hall cx cy h1 h2 h3 h4
  have hle2 : ∀ y x, g2 y x ≤ 1 := by
    intro y x
    rcases addBraiding_mono size level st1.grid st1.rng y x with hm | hm <;>
      rw [hg2, hm]
    exact hle y x
  have hginv2 : GInv (gcoord (((size / 2 : Nat) : Int), ((size / 2 : Nat) : Int)))
      g2 := addBraiding_ginv size level _ st1.grid st1.rng hginv
  obtain ⟨hps, hpe, hpne⟩ := pickStartAndExit_spec size hsize g2 rng2 hall2
  refine ⟨g2, _, hle2, hginv2, ?_, ?_, ?_, ?_⟩
  · rw [hs]
    exact hps
  · rw [he]
    exact hpe
  · rw [hs, he]
    exact hpne
  · rw [hg, hs, he]

/-- Claim C3: in the completed maze, every non-wall cell (path, start or
exit) is reachable from the start cell by moves between orthogonally
adjacent non-wall cells.  Carving maintains a spanning connectivity
invariant and braiding only recodes wall cells to path, never breaking
reachability. -/
theorem generate_connected (seed size level : Nat) (g : Int → Int → Nat)
    (s e : Int × Int) (hsize : 2 ≤ size) (hlevel : 1 ≤ level)
    (hgen : generate seed size level = some (g, s, e)) :
    ∀ p : Int × Int, g p.2 p.1 ≠ 0 → Reach g s p := by
  obtain ⟨g2, r, hle2, hginv2, hgs, hge, hne, hgdef⟩ :=
    generate_anatomy seed size level g s e hsize hgen
  have hnz : ∀ y x, g2 y x ≠ 0 ↔ g y x ≠ 0 := by
    intro y x
    rw [hgdef]
    by_cases hce : y = e.2 ∧ x = e.1
    · rw [hce.1, hce.2, upd2_same]
      constructor
      · intro _
        exact three_ne_zero
      · intro _
        rw [hge]
        exact one_ne_zero
    · rw [upd2_of_ne _ _ _ _ _ _ hce]
      by_cases hcs : y = s.2 ∧ x = s.1
      · rw [hcs.1, hcs.2, upd2_same]
        constructor
        · intro _
          exact two_ne_zero
        · intro _
          rw [hgs]
          exact one_ne_zero
      · rw [upd2_of_ne _ _ _ _ _ _ hcs]
  intro p hp
  have hp2 : g2 p.2 p.1 ≠ 0 := (hnz p.2 p.1).mpr hp
  have hrp : Reach g2 r p := hginv2 p hp2
  have hrs : Reach g2 r s := hginv2 s (by rw [hgs]; exact one_ne_zero)
  have hsp : Reach g2 s p := Relation.ReflTransGen.trans (reach_symm hrs) hrp
  exact (reach_congr (fun y x => hnz y x) s p).mp hsp

/-- Claim C4: the completed grid has exactly one cell coded start (2) and
exactly one cell coded exit (3), and the start cell is never the exit
cell. -/
theorem generate_start_exit (seed size level : Nat) (g : Int → Int → Nat)
    (s e : Int × Int) (hsize : 2 ≤ size) (hlevel : 1 ≤ level)
    (hgen : generate seed size level = some (g, s, e)) :
    g s.2 s.1 = 2 ∧ g e.2 e.1 = 3 ∧
      (∀ p : Int × Int, g p.2 p.1 = 2 → p = s) ∧
      (∀ p : Int × Int, g p.2 p.1 = 3 → p = e) ∧ s ≠ e := by
  obtain ⟨g2, r, hle2, hginv2, hgs, hge, hne, hgdef⟩ :=
    generate_anatomy seed size level g s e hsize hgen
  have hsne : ¬(s.2 = e.2 ∧ s.1 = e.1) := by
    intro hc
    exact hne (Prod.ext hc.2 hc.1)
  refine ⟨?_, ?_, ?_, ?_, hne⟩
  · rw [hgdef, upd2_of_ne _ _ _ _ _ _ hsne, upd2_same]
  · rw [hgdef, upd2_same]
  · intro p hp
    rw [hgdef] at hp
    by_cases hce : p.2 = e.2 ∧ p.1 = e.1
    · rw [hce.1, hce.2, upd2_same] at hp
      exact absurd hp (by omega)
    · rw [upd2_of_ne _ _ _ _ _ _ hce] at hp
      by_cases hcs : p.2 = s.2 ∧ p.1 = s.1
      · exact Prod.ext hcs.2 hcs.1
      · rw [upd2_of_ne _ _ _ _ _ _ hcs] at hp
        have := hle2 p.2 p.1
        omega
  · intro p hp
    rw [hgdef] at hp
    by_cases hce : p.2 = e.2 ∧ p.1 = e.1
    · exact Prod.ext hce.2 hce.1
    · rw [upd2_of_ne _ _ _ _ _ _ hce] at hp
      by_cases hcs : p.2 = s.2 ∧ p.1 = s.1
      · rw [hcs.1, hcs.2, upd2_same] at hp
        exact absurd hp (by omega)
      · rw [upd2_of_ne _ _ _ _ _ _ hcs] at hp
        have := hle2 p.2 p.1
        omega

theorem generate121 : generate 1 2 1 = some (g121, s121, e121) := rfl

/-- Witness for `generate_connected` at the concrete maze `(1, 2, 1)` and
the non-wall cell `(1, 1)`. -/
theorem generate_connected_witness : Reach g121 s121 (1, 1) :=
  generate_connected 1 2 1 g121 s121 e121 (by omega) (by omega)
    generate121 (1, 1) (by decide)

/-- Witness for `generate_start_exit` at the concrete maze `(1, 2, 1)`. -/
theorem generate_start_exit_witness :
    g121 s121.2 s121.1 = 2 ∧ g121 e121.2 e121.1 = 3 ∧
      (∀ p : Int × Int, g121 p.2 p.1 = 2 → p = s121) ∧
      (∀ p : Int × Int, g121 p.2 p.1 = 3 → p = e121) ∧ s121 ≠ e121 :=
  generate_start_exit 1 2 1 g121 s121 e121 (by omega) (by omega) generate121

/-- Claim C5, failing input: in the `(seed, size, level) = (1, 2, 1)`
generation, grid cell `(x, y) = (3, 1)` is a path cell with exactly one
path-coded orthogonal neighbor — a dead end of the grid — yet
`findDeadEnds` returns the empty list: its loops scan only
`0 ≤ x, y < size = 2` of the `5 × 5` grid (cell bounds used as grid
indexes), so every dead end outside the top-left corner is omitted. -/
theorem findDeadEnds_misses_dead_end :
    carved12grid 1 3 = 1 ∧
      countNeighborPaths carved12grid 5 3 1 = 1 ∧
      (findDeadEnds 2 5 carved12grid carved12rng).2 = [] := by decide

end FogMaze
